import Mathlib

/-!
Verification of the s3fs-fuse page-state engine (`fdcache_page.cpp`) and the
worker-pool dispatch guards (`threadpoolman.cpp`).

The C++ code is shallowly embedded: `off_t` values are modelled as unbounded
`Int` (signed 64-bit overflow is undefined behaviour in the source, so the
model and the source agree on every defined execution), page lists are Lean
lists, and in-place mutation becomes explicit state passing.  File contents
are modelled as their character sequences (`List Char`), exactly what the
C++ reads through `pread` buffers and `std::istringstream`.
-/

/-- One contiguous byte range of a cache file, mirroring `struct fdpage`
(offset, bytes, loaded flag, modified flag). -/
structure fdpage where
  offset : Int
  bytes : Int
  loaded : Bool
  modified : Bool
deriving Repr, DecidableEq

/-- Modelled from the spec: the `fdpage` constructor defaults
(`fdpage(off_t start = 0, off_t size = 0, false, false)`) declared in the
missing header `fdcache_page.h`. -/
instance : Inhabited fdpage := ⟨⟨0, 0, false, false⟩⟩

/-- Modelled from the spec: `fdpage::next()` from the missing header
`fdcache_page.h`; the spec pins it down by `Size() = last.offset +
last.length`. -/
def fdpage.next (p : fdpage) : Int := p.offset + p.bytes

/-- Modelled from the spec: `fdpage::end()` from the missing header
`fdcache_page.h`; the last byte position of the page, so that
`end() < start` means the page lies strictly before `start` ("every page
intersecting `[start, start+length)`" in the spec). -/
def fdpage.end_ (p : fdpage) : Int :=
  if 0 < p.bytes then p.offset + p.bytes - 1 else 0

/-- The `page_status` argument of `PageList::SetPageLoadedStatus`. -/
inductive page_status where
  | NOT_LOAD_MODIFIED
  | LOADED
  | MODIFIED
  | LOAD_MODIFIED
deriving Repr, DecidableEq

/-- `PageList`: the ordered page list plus the `is_shrink` flag. -/
structure PageList where
  pages : List fdpage
  is_shrink : Bool
deriving Repr, DecidableEq

/-- `PageList::Init(size, is_loaded, is_modified)`: `Clear()` (which resets
`is_shrink`) followed by pushing the single page when `0 <= size`. -/
def PageList.Init (size : Int) (is_loaded is_modified : Bool) : PageList :=
  if 0 ≤ size then ⟨[⟨0, size, is_loaded, is_modified⟩], false⟩ else ⟨[], false⟩

/-- Last `next()` of a page list; `0` when empty. -/
def lastNext (ps : List fdpage) : Int :=
  match ps.getLast? with
  | none => 0
  | some p => p.next

/-- `PageList::Size()`. -/
def PageList.Size (pl : PageList) : Int := lastNext pl.pages

/-- The loop body of `PageList::Compress` (fdcache_page.cpp:392-427), written
as a recursion on the tail with the current `lastpage` carried explicitly.
The C++ walks the list with a `lastpage` pointer: a non-consecutive
successor either gets a `(false,false)` filler page inserted (when
`lastpage` has a flag set) or the last page is stretched to reach it; then
the current page is merged into `lastpage` when both flags agree. -/
def compressLoop : fdpage → List fdpage → List fdpage
  | last, [] => [last]
  | last, p :: rest =>
    if last.next ≠ p.offset then
      if last.loaded || last.modified then
        -- insert a default-flag filler page, which becomes the new lastpage
        let gap : fdpage := ⟨last.next, p.offset - last.next, false, false⟩
        if gap.loaded == p.loaded && gap.modified == p.modified then
          last :: compressLoop ⟨gap.offset, gap.bytes + p.bytes, gap.loaded, gap.modified⟩ rest
        else
          last :: gap :: compressLoop p rest
      else
        -- expand the last page up to the current offset
        let last' : fdpage := ⟨last.offset, p.offset - last.offset, last.loaded, last.modified⟩
        if last'.loaded == p.loaded && last'.modified == p.modified then
          compressLoop ⟨last'.offset, last'.bytes + p.bytes, last'.loaded, last'.modified⟩ rest
        else
          last' :: compressLoop p rest
    else
      if last.loaded == p.loaded && last.modified == p.modified then
        compressLoop ⟨last.offset, last.bytes + p.bytes, last.loaded, last.modified⟩ rest
      else
        last :: compressLoop p rest

/-- `PageList::Compress()`. -/
def PageList.Compress (pl : PageList) : PageList :=
  match pl.pages with
  | [] => pl
  | first :: rest => { pl with pages := compressLoop first rest }

/-- The search loop of `PageList::Parse(new_pos)`: returns `none` when no
page contains `new_pos` (the C++ returns `false`), otherwise the list with
the containing page split at `new_pos`. -/
def parseLoop (new_pos : Int) : List fdpage → Option (List fdpage)
  | [] => none
  | p :: rest =>
    if new_pos = p.offset then
      some (p :: rest)
    else if p.offset < new_pos ∧ new_pos < p.next then
      some (⟨p.offset, new_pos - p.offset, p.loaded, p.modified⟩ ::
            ⟨new_pos, p.next - new_pos, p.loaded, p.modified⟩ :: rest)
    else
      (parseLoop new_pos rest).map (p :: ·)

/-- `PageList::Parse(new_pos)`: the boolean result together with the updated
list (unchanged on failure). -/
def PageList.Parse (pl : PageList) (new_pos : Int) : Bool × PageList :=
  match parseLoop new_pos pl.pages with
  | some ps => (true, { pl with pages := ps })
  | none => (false, pl)

/-- The cut loop of `PageList::Resize` for `size < total`: pages ending at or
before `size` are kept, pages starting at or after `size` are erased, and a
straddling page is shortened. -/
def resizeCut (size : Int) (ps : List fdpage) : List fdpage :=
  ps.filterMap fun p =>
    if p.next ≤ size then some p
    else if size ≤ p.offset then none
    else some ⟨p.offset, size - p.offset, p.loaded, p.modified⟩

/-- `PageList::Resize(size, is_loaded, is_modified)` (always ends in
`Compress`). -/
def PageList.Resize (pl : PageList) (size : Int) (is_loaded is_modified : Bool) : PageList :=
  let total := pl.Size
  let pl' :=
    if total = 0 then
      -- Init, but the is_shrink flag is preserved
      { PageList.Init size is_loaded is_modified with is_shrink := pl.is_shrink }
    else if total < size then
      { pl with pages := pl.pages ++ [⟨total, size - total, is_loaded, is_modified⟩] }
    else if size < total then
      { pages := resizeCut size pl.pages,
        is_shrink := if is_modified then true else pl.is_shrink }
    else pl
  pl'.Compress

/-- The flag-setting loop of `PageList::SetPageLoadedStatus` for the inner
case: pages before `start` are skipped, the loop breaks at the first page
at or past `start + size`, and every other page gets the new flags. -/
def setStatusLoop (start next_ : Int) (l m : Bool) : List fdpage → List fdpage
  | [] => []
  | p :: rest =>
    if p.end_ < start then p :: setStatusLoop start next_ l m rest
    else if next_ ≤ p.offset then p :: rest
    else ⟨p.offset, p.bytes, l, m⟩ :: setStatusLoop start next_ l m rest

/-- `PageList::SetPageLoadedStatus(start, size, pstatus, is_compress)`
(fdcache_page.cpp:503-542). -/
def PageList.SetPageLoadedStatus (pl : PageList) (start size : Int)
    (pstatus : page_status) (is_compress : Bool) : PageList :=
  let now_size := pl.Size
  let is_loaded := pstatus == .LOAD_MODIFIED || pstatus == .LOADED
  let is_modified := pstatus == .LOAD_MODIFIED || pstatus == .MODIFIED
  let pl' :=
    if now_size ≤ start then
      let pl1 := if now_size < start then pl.Resize start false is_modified else pl
      pl1.Resize (start + size) is_loaded is_modified
    else if now_size ≤ start + size then
      (pl.Resize start false false).Resize (start + size) is_loaded is_modified
    else
      let pl1 := (pl.Parse start).2
      let pl2 := (pl1.Parse (start + size)).2
      { pl2 with pages := setStatusLoop start (start + size) is_loaded is_modified pl2.pages }
  if is_compress then pl'.Compress else pl'

/-- `PageList::ClearAllModified()`. -/
def PageList.ClearAllModified (pl : PageList) : PageList :=
  PageList.Compress ⟨pl.pages.map (fun p => { p with modified := false }), false⟩

/-- `ps` is, in order, a gap-free non-overlapping partition of `[a, b)` into
non-empty pages. -/
def tilesFrom : Int → List fdpage → Int → Prop
  | a, [], b => a = b
  | a, p :: rest, b => p.offset = a ∧ 0 < p.bytes ∧ tilesFrom p.next rest b

instance instDecTilesFrom : (a : Int) → (ps : List fdpage) → (b : Int) → Decidable (tilesFrom a ps b)
  | a, [], b => decidable_of_iff (a = b) (by simp [tilesFrom])
  | a, p :: rest, b =>
    have : Decidable (tilesFrom p.next rest b) := instDecTilesFrom p.next rest b
    decidable_of_iff (p.offset = a ∧ 0 < p.bytes ∧ tilesFrom p.next rest b)
      (by simp [tilesFrom])

/-- Well-formedness of a reachable page list: empty, a single zero-length
page starting at 0 (empty file), or a partition of `[0, Size())`. -/
def WFpages (ps : List fdpage) : Prop :=
  ps = [] ∨ (∃ l m, ps = [⟨0, 0, l, m⟩]) ∨ tilesFrom 0 ps (lastNext ps)

instance (ps : List fdpage) : Decidable (WFpages ps) := by
  unfold WFpages
  have : Decidable (∃ l m, ps = [⟨0, 0, l, m⟩]) := by
    refine decidable_of_iff (ps = [⟨0, 0, false, false⟩] ∨ ps = [⟨0, 0, false, true⟩] ∨
      ps = [⟨0, 0, true, false⟩] ∨ ps = [⟨0, 0, true, true⟩]) ?_
    constructor
    · rintro (h | h | h | h) <;> exact ⟨_, _, h⟩
    · rintro ⟨l, m, h⟩
      cases l <;> cases m <;> simp [h]
  infer_instance

def PageList.WF (pl : PageList) : Prop := WFpages pl.pages

instance (pl : PageList) : Decidable pl.WF := by unfold PageList.WF; infer_instance

/-- The accumulation loop of `PageList::GetTotalUnloadedPageSize`
(fdcache_page.cpp:562-601): pages ending at or before `start` are skipped,
the loop breaks at the first page at or past `next`, loaded or modified
pages are skipped, and the clipped size of every other page is added unless
a positive `limit_size` bounds it. -/
def gtupsLoop (start next limit_size : Int) : List fdpage → Int
  | [] => 0
  | p :: rest =>
    if p.next ≤ start then gtupsLoop start next limit_size rest
    else if next ≤ p.offset then 0
    else if p.loaded || p.modified then gtupsLoop start next limit_size rest
    else
      let tmpsize :=
        if p.offset ≤ start then
          if p.next ≤ next then p.next - start else next - start
        else
          if p.next ≤ next then p.next - p.offset else next - p.offset
      (if limit_size = 0 ∨ tmpsize < limit_size then tmpsize else 0) +
        gtupsLoop start next limit_size rest

/-- `PageList::GetTotalUnloadedPageSize(start, size, limit_size)`. -/
def PageList.GetTotalUnloadedPageSize (pl : PageList) (start size limit_size : Int) : Int :=
  let size := if size = 0 then (if start < pl.Size then pl.Size - start else size) else size
  gtupsLoop start (start + size) limit_size pl.pages

/-- `raw_add_compress_fdpage_list` (fdcache_page.cpp:44-60): append the page
with the ignored flag replaced by its default, dropping empty pages. -/
def raw_add_compress_fdpage_list (acc : List fdpage) (orgpage : fdpage)
    (ignore_load ignore_modify default_load default_modify : Bool) : List fdpage :=
  if 0 < orgpage.bytes then
    acc ++ [{ orgpage with
      loaded := if ignore_load then default_load else orgpage.loaded,
      modified := if ignore_modify then default_modify else orgpage.modified }]
  else acc

/-- The loop of `raw_compress_fdpage_list` (fdcache_page.cpp:73-123), with
the growing output list as accumulator; `lastpage` is its last element.
Zero-size input pages are skipped.  A non-consecutive successor either gets
a default-flag filler page appended (when the considered flags of the last
page are set) or the last page is stretched to the current offset; then the
current page either starts a new output page (considered flags differ) or
is merged into the last one. -/
def rawCompressLoop (il im dl dm : Bool) : List fdpage → List fdpage → List fdpage
  | acc, [] => acc
  | acc, cur :: rest =>
    if cur.bytes = 0 then rawCompressLoop il im dl dm acc rest
    else
      match acc.getLast? with
      | none =>
        rawCompressLoop il im dl dm (raw_add_compress_fdpage_list acc cur il im dl dm) rest
      | some last =>
        let acc1 :=
          if last.next ≠ cur.offset then
            if (!il && last.loaded != false) || (!im && last.modified != false) then
              raw_add_compress_fdpage_list acc ⟨last.next, cur.offset - last.next, false, false⟩ il im dl dm
            else
              acc.dropLast ++ [{ last with bytes := cur.offset - last.offset }]
          else acc
        let last1 := acc1.getLast?.getD last
        let acc2 :=
          if (!il && last1.loaded != cur.loaded) || (!im && last1.modified != cur.modified) then
            raw_add_compress_fdpage_list acc1 cur il im dl dm
          else
            acc1.dropLast ++ [{ last1 with bytes := last1.bytes + cur.bytes }]
        rawCompressLoop il im dl dm acc2 rest

/-- `raw_compress_fdpage_list(pages, compressed_pages, ...)`. -/
def raw_compress_fdpage_list (pages : List fdpage)
    (ignore_load ignore_modify default_load default_modify : Bool) : List fdpage :=
  rawCompressLoop ignore_load ignore_modify default_load default_modify [] pages

/-- `compress_fdpage_list_ignore_modify`. -/
def compress_fdpage_list_ignore_modify (pages : List fdpage) (default_modify : Bool) : List fdpage :=
  raw_compress_fdpage_list pages false true false default_modify

/-- `compress_fdpage_list_ignore_load`. -/
def compress_fdpage_list_ignore_load (pages : List fdpage) (default_load : Bool) : List fdpage :=
  raw_compress_fdpage_list pages true false default_load false

/-- The chunking loop of `parse_partsize_fdpage_list` for one modified page,
with explicit fuel so the recursion is structural: emit `max_partsize`
chunks while more than `2*max_partsize` bytes remain, then emit the rest as
a single final chunk.  The guard `0 < maxp` in the split condition is
needed for termination in Lean; the C++ loop does not terminate for
`max_partsize <= 0 < rest_bytes`, a case no caller exercises. -/
def splitChunksFuel (maxp : Int) (tmpl : fdpage) : Nat → Int → Int → List fdpage
  | 0, _, _ => []
  | fuel + 1, start, rest =>
    if 0 < rest then
      if maxp * 2 < rest ∧ 0 < maxp then
        { tmpl with offset := start, bytes := maxp } ::
          splitChunksFuel maxp tmpl fuel (start + maxp) (rest - maxp)
      else
        [{ tmpl with offset := start, bytes := rest }]
    else []

/-- The chunking loop at its entry point; `rest.toNat` steps suffice since
each split removes `maxp >= 1` bytes. -/
def splitChunks (maxp : Int) (tmpl : fdpage) (start rest : Int) : List fdpage :=
  splitChunksFuel maxp tmpl rest.toNat start rest

/-- `parse_partsize_fdpage_list(pages, max_partsize)`
(fdcache_page.cpp:140-174): modified pages are chunked, unmodified pages
pass through unchanged. -/
def parse_partsize_fdpage_list (pages : List fdpage) (max_partsize : Int) : List fdpage :=
  pages.flatMap fun p =>
    if p.modified then splitChunks max_partsize p p.offset p.bytes else [p]

/-- One step of the planner walk of `PageList::GetPageListsForMultipartUpload`
(fdcache_page.cpp:661-733), carrying `(prev_page, download_pages,
mixupload_pages)` across the modified-page list. -/
def mpuStep (minSize : Int) :
    fdpage × List fdpage × List fdpage → fdpage → fdpage × List fdpage × List fdpage
  | (prev, dl, mix), cur =>
    if cur.modified then
      if !prev.modified then
        if prev.bytes < minSize then
          (cur, dl ++ [prev], mix ++ [{ prev with modified := true }])
        else
          (cur, dl, mix ++ [{ prev with modified := false }])
      else
        ({ prev with bytes := prev.bytes + cur.bytes }, dl, mix)
    else
      if !prev.modified then
        ({ prev with bytes := prev.bytes + cur.bytes }, dl, mix)
      else
        if prev.bytes < minSize then
          let missing_bytes := minSize - prev.bytes
          if missing_bytes + minSize < cur.bytes then
            ({ cur with offset := cur.offset + missing_bytes, bytes := cur.bytes - missing_bytes },
             dl ++ [⟨cur.offset, missing_bytes, false, false⟩],
             mix ++ [{ prev with bytes := minSize }])
          else
            ({ prev with bytes := prev.bytes + cur.bytes }, dl ++ [cur], mix)
        else
          (cur, dl, mix ++ [prev])

/-- `PageList::GetPageListsForMultipartUpload(dlpages, mixuppages,
max_partsize)` (fdcache_page.cpp:649-748), parametrised by the minimum part
size (`MIN_MULTIPART_SIZE`, a constant declared outside these sources).
The method also replaces `this->pages` by its compression, which changes no
observable page-list state; the two output lists are returned. -/
def PageList.GetPageListsForMultipartUpload (pl : PageList) (minSize max_partsize : Int) :
    List fdpage × List fdpage :=
  let compressed := pl.Compress
  let modified_pages := compress_fdpage_list_ignore_load compressed.pages false
  let st := modified_pages.foldl (mpuStep minSize) (default, [], [])
  let prev_page := st.1
  let mixupload_pages := if 0 < prev_page.bytes then st.2.2 ++ [prev_page] else st.2.2
  let dlpages := compress_fdpage_list_ignore_modify st.2.1 false
  let mixuppages := compress_fdpage_list_ignore_load mixupload_pages false
  (parse_partsize_fdpage_list dlpages max_partsize,
   parse_partsize_fdpage_list mixuppages max_partsize)

/-- The 5-case overlap computation of `PageList::CheckAreaInSparseFile`
(fdcache_page.cpp:292-322): the `(check_start, check_bytes)` region for a
sparse segment `s` overlapping the check page (cases 0 and 1, no overlap,
are handled by the caller). -/
def checkRegion (checkpage s : fdpage) : Int × Int :=
  if s.offset < checkpage.offset ∧ s.offset + s.bytes < checkpage.offset + checkpage.bytes then
    -- case 2
    (checkpage.offset, s.bytes - (checkpage.offset - s.offset))
  else if checkpage.offset + checkpage.bytes < s.offset + s.bytes then
    -- case 3
    (s.offset, checkpage.bytes - (s.offset - checkpage.offset))
  else if checkpage.offset < s.offset ∧ s.offset + s.bytes < checkpage.offset + checkpage.bytes then
    -- case 4
    (s.offset, s.bytes)
  else
    -- case 5
    (checkpage.offset, checkpage.bytes)

/-- The scan loop of `PageList::CheckAreaInSparseFile`
(fdcache_page.cpp:276-347).  `cz start bytes` abstracts
`PageList::CheckZeroAreaInFile(fd, start, bytes)` (a `pread` loop over the
cache file, pure I/O).  The boolean accumulator is the local `result`;
error and warning pages are appended to the carried lists. -/
def checkAreaLoop (checkpage : fdpage) (cz : Int → Int → Bool) :
    List fdpage → Bool → List fdpage → List fdpage → Bool × List fdpage × List fdpage
  | [], res, err, warn => (res, err, warn)
  | s :: rest, res, err, warn =>
    if s.offset + s.bytes ≤ checkpage.offset then
      -- case 0: segment strictly before the page
      checkAreaLoop checkpage cz rest res err warn
    else if checkpage.offset + checkpage.bytes ≤ s.offset then
      -- case 1: segment strictly past the page, finish
      (res, err, warn)
    else
      let check_start := (checkRegion checkpage s).1
      let check_bytes := (checkRegion checkpage s).2
      if checkpage.loaded || checkpage.modified then
        if !s.loaded then
          checkAreaLoop checkpage cz rest false (err ++ [⟨check_start, check_bytes, false, false⟩]) warn
        else
          checkAreaLoop checkpage cz rest res err warn
      else
        if s.loaded then
          if !cz check_start check_bytes then
            checkAreaLoop checkpage cz rest false err (warn ++ [⟨check_start, check_bytes, true, false⟩])
          else
            checkAreaLoop checkpage cz rest res err warn
        else
          checkAreaLoop checkpage cz rest res err warn

/-- `PageList::CheckAreaInSparseFile(checkpage, sparse_list, fd, err, warn)`. -/
def PageList.CheckAreaInSparseFile (checkpage : fdpage) (sparse_list : List fdpage)
    (cz : Int → Int → Bool) (err warn : List fdpage) : Bool × List fdpage × List fdpage :=
  checkAreaLoop checkpage cz sparse_list true err warn

/-- `PageList::CompareSparseFile(fd, file_size, err_area_list,
warn_area_list)` (fdcache_page.cpp:1003-1034).  The sparse probe
`GetSparseFilePages` is pure `lseek` I/O and is abstracted as `probe`:
`none` when the probe fails, otherwise the hole/data segment list it
produced; `cz` abstracts `CheckZeroAreaInFile` as above. -/
def PageList.CompareSparseFile (pl : PageList) (file_size : Int)
    (probe : Option (List fdpage)) (cz : Int → Int → Bool) :
    Bool × List fdpage × List fdpage :=
  match probe with
  | none => (false, [⟨0, file_size, false, false⟩], [])
  | some sparse_list =>
    if sparse_list = [] ∧ pl.pages = [] then (true, [], [])
    else
      pl.pages.foldl
        (fun acc p =>
          let r := checkAreaLoop p cz sparse_list true acc.2.1 acc.2.2
          (acc.1 && r.1, r.2.1, r.2.2))
        (true, [], [])

/-- Decimal digit to character; only applied to digits below 10. -/
def digitChar : Nat → Char
  | 0 => '0' | 1 => '1' | 2 => '2' | 3 => '3' | 4 => '4'
  | 5 => '5' | 6 => '6' | 7 => '7' | 8 => '8' | 9 => '9'
  | _ => '*'

/-- Character to decimal digit value; non-digits give 0. -/
def charDigit : Char → Nat
  | '1' => 1 | '2' => 2 | '3' => 3 | '4' => 4 | '5' => 5
  | '6' => 6 | '7' => 7 | '8' => 8 | '9' => 9 | _ => 0

/-- Little-endian decimal digits of `n`, with explicit fuel (`fuel = n`
suffices) so the definition is structural and kernel-computable. -/
def natDigitsRevFuel : Nat → Nat → List Nat
  | 0, _ => []
  | fuel + 1, n => if n = 0 then [] else n % 10 :: natDigitsRevFuel fuel (n / 10)

/-- Little-endian decimal digits of `n` (empty for 0). -/
def natDigitsRev (n : Nat) : List Nat := natDigitsRevFuel n n

/-- Decimal rendering of a natural number (the `std::ostringstream`
insertion used by `PageList::Serialize`); 0 renders as "0". -/
def natToDec (n : Nat) : List Char :=
  if n = 0 then ['0'] else ((natDigitsRev n).reverse.map digitChar)

/-- Decimal rendering of an `off_t` value (negative values get a leading
minus sign, as `operator<<` prints them). -/
def intToDec (i : Int) : List Char :=
  if i < 0 then '-' :: natToDec (-i).toNat else natToDec i.toNat

/-- Value of a big-endian digit list. -/
def decValue (cs : List Char) : Nat :=
  cs.foldl (fun acc c => acc * 10 + charDigit c) 0

/-- Modelled from the spec: `cvt_strtoofft(str, 10)` from `string_util.cpp`
(not among the given sources); per the spec the stats-file numbers are
"decimal signed 64-bit", so this parses an optional minus sign followed by
the longest leading run of decimal digits (the `strtoll` behaviour). -/
def cvt_strtoofft (cs : List Char) : Int :=
  match cs with
  | [] => 0
  | c :: rest =>
    if c = '-' then -(decValue (rest.takeWhile Char.isDigit) : Int)
    else (decValue ((c :: rest).takeWhile Char.isDigit) : Int)

/-- Split a character sequence at every occurrence of `delim`; the result
always has one more element than the number of delimiters. -/
def splitOnChar (delim : Char) : List Char → List (List Char)
  | [] => [[]]
  | c :: rest =>
    if c = delim then [] :: splitOnChar delim rest
    else
      match splitOnChar delim rest with
      | [] => [[c]]
      | t :: ts => (c :: t) :: ts

/-- The token sequence produced by repeated `std::getline(stream, s, delim)`
on a stream holding `cs`: like `splitOnChar`, except that `getline` fails
at end-of-stream, so a trailing empty token (in particular the only token
of an empty stream) is not produced. -/
def cppTokens (delim : Char) (cs : List Char) : List (List Char) :=
  let ts := splitOnChar delim cs
  if ts.getLast? = some [] then ts.dropLast else ts

/-- Header-line parsing of `PageList::Deserialize`
(fdcache_page.cpp:885-915): one colon-separated field is the legacy
`<size>` format (reported as inode 0), two or more fields are the current
`<inode>:<size>` format, where a parsed inode of 0 is an error. -/
def parseHead (line : List Char) : Option (Nat × Int) :=
  match cppTokens ':' line with
  | [] => none
  | [strhead1] => some (0, cvt_strtoofft strhead1)
  | strhead1 :: strhead2 :: _ =>
    let total := cvt_strtoofft strhead2
    let cache_inode := ((cvt_strtoofft strhead1) % (2 ^ 64 : Int)).toNat
    if cache_inode = 0 then none else some (cache_inode, total)

/-- Body-line parsing of `PageList::Deserialize`
(fdcache_page.cpp:924-964): at least offset, size and loaded fields are
required; a missing modified field defaults to false. -/
def parseRow (line : List Char) : Option (Int × Int × Bool × Bool) :=
  match cppTokens ':' line with
  | o :: s :: l :: rest =>
    let offset := cvt_strtoofft o
    let size := cvt_strtoofft s
    let is_loaded := cvt_strtoofft l = 1
    let is_modified :=
      match rest with
      | [] => false
      | m :: _ => cvt_strtoofft m = 1
    some (offset, size, is_loaded, is_modified)
  | _ => none

/-- The `page_status` reconstructed from loaded/modified flags in
`PageList::Deserialize` (fdcache_page.cpp:952-963). -/
def statusOf (is_loaded is_modified : Bool) : page_status :=
  if is_loaded then
    if is_modified then .LOAD_MODIFIED else .LOADED
  else
    if is_modified then .MODIFIED else .NOT_LOAD_MODIFIED

/-- One serialized page line of `PageList::Serialize`:
`<offset>:<bytes>:<loaded 0|1>:<modified 0|1>`. -/
def serializePage (p : fdpage) : List Char :=
  intToDec p.offset ++ ':' :: intToDec p.bytes ++
    ':' :: (if p.loaded then ['1'] else ['0']) ++
    ':' :: (if p.modified then ['1'] else ['0'])

/-- `PageList::Serialize(file, inode)` (fdcache_page.cpp:823-850): the text
written to the stats file (the file is truncated first, so this is its
whole content).  `ino_t` is unsigned, hence `inode : Nat`. -/
def PageList.Serialize (pl : PageList) (inode : Nat) : List Char :=
  natToDec inode ++ ':' :: intToDec pl.Size ++
    (pl.pages.map (fun p => '\n' :: serializePage p)).flatten

/-- `PageList::Deserialize(file, inode)` (fdcache_page.cpp:852-980),
with the stats-file content passed as its character sequence.  Returns the
C++ boolean result and the resulting page list.  An empty file yields
`Init(0,false,false)`; a bad header fails with the list cleared; rows are
replayed through `SetPageLoadedStatus`; a bad row or a final size mismatch
clears the list and fails. -/
def PageList.Deserialize (content : List Char) (inode : Nat) : Bool × PageList :=
  if content = [] then (true, PageList.Init 0 false false)
  else
    match cppTokens '\n' content with
    | [] => (false, ⟨[], false⟩)
    | headline :: rows =>
      match parseHead headline with
      | none => (false, ⟨[], false⟩)
      | some (cache_inode, total) =>
        if cache_inode ≠ 0 ∧ cache_inode ≠ inode then (false, ⟨[], false⟩)
        else
          match rows.mapM parseRow with
          | none => (false, ⟨[], false⟩)
          | some parsed =>
            let pl := parsed.foldl
              (fun (acc : PageList) r =>
                acc.SetPageLoadedStatus r.1 r.2.1 (statusOf r.2.2.1 r.2.2.2) true)
              ⟨[], false⟩
            if total ≠ pl.Size then (false, ⟨[], false⟩) else (true, pl)

/-- A worker-pool job parameter (`thpoolman_param`): the argument bundle and
function pointer are opaque; only whether the completion semaphore pointer
is null matters for the dispatch guards. -/
structure thpoolman_param where
  psem : Bool
deriving Repr, DecidableEq

/-- The queue-relevant state of a live `ThreadPoolMan` instance: the FIFO
instruction list and the dispatch-semaphore counter. -/
structure ThreadPoolManState where
  instruction_list : List thpoolman_param
  sem_count : Nat
deriving Repr, DecidableEq

/-- The process-wide pool state: `ThreadPoolMan::singleton` is null before
`Initialize` and after `Destroy`. -/
structure ThreadPoolGlobal where
  singleton : Option ThreadPoolManState
deriving Repr, DecidableEq

/-- Outcome of a dispatch call in the sequential model: `ret` is an ordinary
boolean return with the resulting global state; `blocks` marks the path of
`AwaitInstruct` that enqueues and then blocks on the local semaphore until
a worker completes the job. -/
inductive DispatchResult where
  | ret (success : Bool) (g : ThreadPoolGlobal)
  | blocks (g : ThreadPoolGlobal)
deriving Repr, DecidableEq

/-- `ThreadPoolMan::SetInstruction(param)` (threadpoolman.cpp:277-287):
push the parameter and release the dispatch semaphore. -/
def ThreadPoolManState.SetInstruction (st : ThreadPoolManState)
    (param : thpoolman_param) : ThreadPoolManState :=
  { instruction_list := st.instruction_list ++ [param], sem_count := st.sem_count + 1 }

/-- `ThreadPoolMan::Instruct(param)` (threadpoolman.cpp:81-93). -/
def ThreadPoolMan.Instruct (g : ThreadPoolGlobal) (param : thpoolman_param) : DispatchResult :=
  match g.singleton with
  | none => .ret false g
  | some st =>
    if !param.psem then .ret false g
    else .ret true ⟨some (st.SetInstruction param)⟩

/-- `ThreadPoolMan::AwaitInstruct(param)` (threadpoolman.cpp:95-120): the
parameter must carry no semaphore; a local semaphore is attached, the job
is enqueued and the caller blocks until a worker releases it. -/
def ThreadPoolMan.AwaitInstruct (g : ThreadPoolGlobal) (param : thpoolman_param) : DispatchResult :=
  match g.singleton with
  | none => .ret false g
  | some st =>
    if param.psem then .ret false g
    else .blocks ⟨some (st.SetInstruction ⟨true⟩)⟩

/-- The flags recorded for byte position `x`: those of the first page whose
range contains `x`. -/
def flagsAt (ps : List fdpage) (x : Int) : Option (Bool × Bool) :=
  (ps.find? fun p => decide (p.offset ≤ x) && decide (x < p.next)).map
    fun p => (p.loaded, p.modified)

/-- Adjacent pages never agree on both flags (the post-`Compress` shape). -/
def noMerge : List fdpage → Prop
  | p :: q :: rest => ¬(p.loaded = q.loaded ∧ p.modified = q.modified) ∧ noMerge (q :: rest)
  | _ => True

theorem tilesFrom_nil {a b : Int} : tilesFrom a [] b ↔ a = b := by
  simp [tilesFrom]

theorem tilesFrom_cons {a b : Int} {p : fdpage} {ps : List fdpage} :
    tilesFrom a (p :: ps) b ↔ p.offset = a ∧ 0 < p.bytes ∧ tilesFrom p.next ps b := by
  simp [tilesFrom]

theorem tilesFrom_le {ps : List fdpage} : ∀ {a b : Int}, tilesFrom a ps b → a ≤ b := by
  induction ps with
  | nil => intro a b h; rw [tilesFrom_nil] at h; omega
  | cons p rest ih =>
    intro a b h
    rw [tilesFrom_cons] at h
    have h2 := ih h.2.2
    have h3 := h.1
    have h4 := h.2.1
    simp only [fdpage.next] at h2
    omega

theorem tilesFrom_append {xs ys : List fdpage} : ∀ {a b c : Int},
    tilesFrom a xs b → tilesFrom b ys c → tilesFrom a (xs ++ ys) c := by
  induction xs with
  | nil =>
    intro a b c h1 h2
    rw [tilesFrom_nil] at h1
    simpa [h1] using h2
  | cons p rest ih =>
    intro a b c h1 h2
    rw [tilesFrom_cons] at h1
    exact tilesFrom_cons.2 ⟨h1.1, h1.2.1, ih h1.2.2 h2⟩

theorem tilesFrom_lastNext {ps : List fdpage} : ∀ {a b : Int},
    tilesFrom a ps b → ps ≠ [] → lastNext ps = b := by
  induction ps with
  | nil => intro a b _ h; exact absurd rfl h
  | cons p rest ih =>
    intro a b h _
    rw [tilesFrom_cons] at h
    cases rest with
    | nil =>
      rw [tilesFrom_nil] at h
      simp [lastNext, h.2.2]
    | cons q rest' =>
      have := ih h.2.2 (by simp)
      simpa [lastNext, List.getLast?_cons_cons] using this

theorem tilesFrom_mem_pos {ps : List fdpage} : ∀ {a b : Int} {p : fdpage},
    tilesFrom a ps b → p ∈ ps → 0 < p.bytes := by
  induction ps with
  | nil => intro a b p _ h; simp at h
  | cons q rest ih =>
    intro a b p h hm
    rw [tilesFrom_cons] at h
    rcases List.mem_cons.1 hm with h1 | h1
    · exact h1 ▸ h.2.1
    · exact ih h.2.2 h1

theorem tilesFrom_mem_bounds {ps : List fdpage} : ∀ {a b : Int} {p : fdpage},
    tilesFrom a ps b → p ∈ ps → a ≤ p.offset ∧ p.next ≤ b := by
  induction ps with
  | nil => intro a b p _ h; simp at h
  | cons q rest ih =>
    intro a b p h hm
    rw [tilesFrom_cons] at h
    rcases List.mem_cons.1 hm with h1 | h1
    · subst h1
      exact ⟨le_of_eq h.1.symm, tilesFrom_le h.2.2⟩
    · have h2 := ih h.2.2 h1
      have h3 := h.1
      have h4 := h.2.1
      constructor
      · have : q.next = q.offset + q.bytes := rfl
        omega
      · exact h2.2

theorem noMerge_cons {p : fdpage} {ps : List fdpage}
    (h1 : ∀ q ∈ ps.head?, ¬(p.loaded = q.loaded ∧ p.modified = q.modified))
    (h2 : noMerge ps) : noMerge (p :: ps) := by
  cases ps with
  | nil => trivial
  | cons q rest => exact ⟨h1 q rfl, h2⟩

theorem flagsAt_cons (p : fdpage) (ps : List fdpage) (x : Int) :
    flagsAt (p :: ps) x =
      if p.offset ≤ x ∧ x < p.next then some (p.loaded, p.modified) else flagsAt ps x := by
  unfold flagsAt
  split
  case isTrue h =>
    rw [List.find?_cons_of_pos]
    · rfl
    · simp [h.1, h.2]
  case isFalse h =>
    rw [List.find?_cons_of_neg]
    simp only [Bool.and_eq_true, decide_eq_true_eq]
    exact fun hc => h hc

theorem flagsAt_merge {last p : fdpage} {rest : List fdpage} {x : Int}
    (ho : p.offset = last.next) (hbl : 0 < last.bytes) (hbp : 0 < p.bytes)
    (hl : last.loaded = p.loaded) (hm : last.modified = p.modified) :
    flagsAt (⟨last.offset, last.bytes + p.bytes, last.loaded, last.modified⟩ :: rest) x =
    flagsAt (last :: p :: rest) x := by
  have hnext : last.next = last.offset + last.bytes := rfl
  have hpnext : p.next = p.offset + p.bytes := rfl
  rw [flagsAt_cons, flagsAt_cons, flagsAt_cons]
  by_cases h1 : last.offset ≤ x
  · by_cases h2 : x < last.next
    · rw [if_pos, if_pos ⟨h1, h2⟩]
      exact ⟨h1, by simp only [fdpage.next]; omega⟩
    · by_cases h3 : x < p.next
      · rw [if_pos, if_neg, if_pos]
        · simp [hl, hm]
        · exact ⟨by omega, h3⟩
        · exact fun hc => h2 hc.2
        · exact ⟨h1, by simp only [fdpage.next]; omega⟩
      · rw [if_neg, if_neg, if_neg]
        · exact fun hc => h3 hc.2
        · exact fun hc => h2 hc.2
        · simp only [fdpage.next]
          omega
  · rw [if_neg, if_neg, if_neg]
    · exact fun hc => h1 (by omega : last.offset ≤ x)
    · exact fun hc => h1 hc.1
    · exact fun hc => h1 hc.1

theorem compressLoop_spec {ps : List fdpage} : ∀ {last : fdpage} {b : Int},
    0 < last.bytes → tilesFrom last.next ps b →
    tilesFrom last.offset (compressLoop last ps) b ∧
    noMerge (compressLoop last ps) ∧
    (∀ x, flagsAt (compressLoop last ps) x = flagsAt (last :: ps) x) ∧
    ∃ hd tl, compressLoop last ps = hd :: tl ∧ hd.offset = last.offset ∧
      hd.loaded = last.loaded ∧ hd.modified = last.modified := by
  induction ps with
  | nil =>
    intro last b h1 h2
    rw [tilesFrom_nil] at h2
    rw [compressLoop]
    exact ⟨tilesFrom_cons.2 ⟨rfl, h1, tilesFrom_nil.2 h2⟩, trivial, fun x => rfl,
      last, [], rfl, rfl, rfl, rfl⟩
  | cons p rest ih =>
    intro last b h1 h2
    rw [tilesFrom_cons] at h2
    obtain ⟨ho, hb, ht⟩ := h2
    have hstep : compressLoop last (p :: rest) =
        if last.loaded == p.loaded && last.modified == p.modified then
          compressLoop ⟨last.offset, last.bytes + p.bytes, last.loaded, last.modified⟩ rest
        else last :: compressLoop p rest := by
      rw [compressLoop, if_neg (by simp [ho])]
    by_cases hf : last.loaded = p.loaded ∧ last.modified = p.modified
    · -- merge: the current page joins lastpage
      rw [hstep, if_pos (by simp [hf.1, hf.2])]
      set merged : fdpage := ⟨last.offset, last.bytes + p.bytes, last.loaded, last.modified⟩ with hmg
      have hmb : 0 < merged.bytes := by simp only [hmg]; omega
      have hmn : merged.next = p.next := by
        simp only [hmg, fdpage.next] at ho ⊢
        omega
      have hmt : tilesFrom merged.next rest b := hmn ▸ ht
      obtain ⟨c1, c2, c3, hd, tl, heq, hh1, hh2, hh3⟩ := ih hmb hmt
      refine ⟨c1, c2, ?_, hd, tl, heq, hh1, hh2, hh3⟩
      intro x
      rw [c3 x]
      exact flagsAt_merge ho h1 hb hf.1 hf.2
    · -- no merge: lastpage is emitted and the current page becomes lastpage
      rw [hstep, if_neg (by
        simp only [Bool.and_eq_true, beq_iff_eq]
        exact fun hc => hf hc)]
      obtain ⟨c1, c2, c3, hd, tl, heq, hh1, hh2, hh3⟩ := ih hb ht
      refine ⟨?_, ?_, ?_, last, compressLoop p rest, rfl, rfl, rfl, rfl⟩
      · exact tilesFrom_cons.2 ⟨rfl, h1, ho ▸ c1⟩
      · refine noMerge_cons ?_ c2
        intro q hq
        rw [heq] at hq
        simp only [List.head?_cons, Option.mem_def, Option.some.injEq] at hq
        subst hq
        rw [hh2, hh3]
        exact hf
      · intro x
        rw [flagsAt_cons, flagsAt_cons, c3 x]

theorem lastNext_nil : lastNext [] = 0 := rfl

theorem lastNext_singleton (p : fdpage) : lastNext [p] = p.next := rfl

theorem lastNext_cons_cons (p q : fdpage) (r : List fdpage) :
    lastNext (p :: q :: r) = lastNext (q :: r) := by
  simp [lastNext, List.getLast?_cons_cons]

theorem lastNext_concat (xs : List fdpage) (p : fdpage) :
    lastNext (xs ++ [p]) = p.next := by
  simp [lastNext, List.getLast?_concat]

theorem Compress_is_shrink (pl : PageList) : pl.Compress.is_shrink = pl.is_shrink := by
  obtain ⟨ps, sh⟩ := pl
  cases ps <;> rfl

theorem Compress_spec {pl : PageList} (h : pl.WF) :
    pl.Compress.WF ∧ pl.Compress.Size = pl.Size ∧
    (∀ x, flagsAt pl.Compress.pages x = flagsAt pl.pages x) ∧
    noMerge pl.Compress.pages := by
  obtain ⟨ps, sh⟩ := pl
  rcases h with h | ⟨l, m, h⟩ | h
  · simp only at h
    subst h
    exact ⟨Or.inl rfl, rfl, fun x => rfl, trivial⟩
  · simp only at h
    subst h
    refine ⟨Or.inr (Or.inl ⟨l, m, ?_⟩), rfl, fun x => ?_, ?_⟩
    · rfl
    · rfl
    · trivial
  · simp only at h
    cases ps with
    | nil => exact ⟨Or.inl rfl, rfl, fun x => rfl, trivial⟩
    | cons first rest =>
      rw [tilesFrom_cons] at h
      obtain ⟨ho, hb, ht⟩ := h
      obtain ⟨c1, c2, c3, hd, tl, heq, -, -, -⟩ := compressLoop_spec hb ht
      have hne : compressLoop first rest ≠ [] := by rw [heq]; simp
      have hcp : (PageList.mk (first :: rest) sh).Compress =
          ⟨compressLoop first rest, sh⟩ := rfl
      rw [hcp]
      have hln : lastNext (compressLoop first rest) = lastNext (first :: rest) :=
        tilesFrom_lastNext (ho ▸ c1) hne
      refine ⟨Or.inr (Or.inr ?_), ?_, c3, c2⟩
      · simp only [PageList.Size] at hln ⊢
        rw [hln]
        exact ho ▸ c1
      · simp only [PageList.Size]
        exact hln

theorem Init_WF (size : Int) (l m : Bool) : (PageList.Init size l m).WF := by
  unfold PageList.Init
  split
  case isTrue h =>
    rcases lt_or_eq_of_le h with h1 | h1
    · refine Or.inr (Or.inr ?_)
      simp only [PageList.WF]
      rw [lastNext_singleton]
      exact tilesFrom_cons.2 ⟨rfl, h1, tilesFrom_nil.2 rfl⟩
    · exact Or.inr (Or.inl ⟨l, m, by simp [← h1]⟩)
  case isFalse h => exact Or.inl rfl


theorem resizeCut_cons (size : Int) (p : fdpage) (rest : List fdpage) :
    resizeCut size (p :: rest) =
      if p.next ≤ size then p :: resizeCut size rest
      else if size ≤ p.offset then resizeCut size rest
      else ⟨p.offset, size - p.offset, p.loaded, p.modified⟩ :: resizeCut size rest := by
  unfold resizeCut
  rw [List.filterMap_cons]
  by_cases h1 : p.next ≤ size
  · simp [h1]
  · by_cases h2 : size ≤ p.offset <;> simp [h1, h2]

theorem resizeCut_eq_nil {ps : List fdpage} : ∀ {a b size : Int},
    tilesFrom a ps b → size ≤ a → resizeCut size ps = [] := by
  induction ps with
  | nil => intro a b size _ _; rfl
  | cons p rest ih =>
    intro a b size h hs
    rw [tilesFrom_cons] at h
    obtain ⟨ho, hb, ht⟩ := h
    subst ho
    have hn : p.next = p.offset + p.bytes := rfl
    rw [resizeCut_cons, if_neg (by omega), if_pos (by omega)]
    exact ih ht (by omega)

theorem resizeCut_tiles {ps : List fdpage} : ∀ {a b size : Int},
    tilesFrom a ps b → a < size → size < b → tilesFrom a (resizeCut size ps) size := by
  induction ps with
  | nil =>
    intro a b size h h1 h2
    rw [tilesFrom_nil] at h
    omega
  | cons p rest ih =>
    intro a b size h h1 h2
    rw [tilesFrom_cons] at h
    obtain ⟨ho, hb, ht⟩ := h
    subst ho
    have hn : p.next = p.offset + p.bytes := rfl
    rw [resizeCut_cons]
    by_cases hk : p.next ≤ size
    · rw [if_pos hk]
      rcases lt_or_eq_of_le hk with hk1 | hk1
      · exact tilesFrom_cons.2 ⟨rfl, hb, ih ht hk1 h2⟩
      · rw [tilesFrom_cons]
        refine ⟨rfl, hb, ?_⟩
        rw [resizeCut_eq_nil ht (le_of_eq hk1.symm), hk1]
        exact tilesFrom_nil.2 rfl
    · rw [if_neg hk, if_neg (by omega)]
      rw [resizeCut_eq_nil ht (by omega)]
      rw [tilesFrom_cons]
      refine ⟨rfl, ?_, ?_⟩
      · show (0 : Int) < size - p.offset
        omega
      · show tilesFrom (fdpage.next ⟨p.offset, size - p.offset, p.loaded, p.modified⟩) [] size
        rw [tilesFrom_nil]
        show p.offset + (size - p.offset) = size
        ring

theorem Resize_WF {pl : PageList} (h : pl.WF) (size : Int) (l m : Bool) :
    (pl.Resize size l m).WF := by
  unfold PageList.Resize
  simp only
  split
  case isTrue h0 =>
    refine (Compress_spec ?_).1
    show WFpages (PageList.Init size l m).pages
    exact Init_WF size l m
  case isFalse h0 =>
    split
    case isTrue h1 =>
      refine (Compress_spec ?_).1
      rcases h with h | ⟨l', m', h⟩ | h
      · exfalso; apply h0; simp [PageList.Size, h, lastNext_nil]
      · exfalso; apply h0; simp [PageList.Size, h, lastNext_singleton, fdpage.next]
      · refine Or.inr (Or.inr ?_)
        show tilesFrom 0 (pl.pages ++ [⟨pl.Size, size - pl.Size, l, m⟩])
          (lastNext (pl.pages ++ [⟨pl.Size, size - pl.Size, l, m⟩]))
        have hx : (fdpage.mk pl.Size (size - pl.Size) l m).next = size := by
          show pl.Size + (size - pl.Size) = size
          ring
        rw [lastNext_concat, hx]
        refine tilesFrom_append h ?_
        rw [tilesFrom_cons]
        refine ⟨rfl, ?_, ?_⟩
        · show (0 : Int) < size - pl.Size
          omega
        · rw [hx, tilesFrom_nil]
    case isFalse h1 =>
      split
      case isTrue h2 =>
        refine (Compress_spec ?_).1
        rcases h with h | ⟨l', m', h⟩ | h
        · exfalso; apply h0; simp [PageList.Size, h, lastNext_nil]
        · exfalso; apply h0; simp [PageList.Size, h, lastNext_singleton, fdpage.next]
        · by_cases h3 : 0 < size
          · refine Or.inr (Or.inr ?_)
            show tilesFrom 0 (resizeCut size pl.pages) (lastNext (resizeCut size pl.pages))
            have hc := resizeCut_tiles h h3 h2
            have hcne : resizeCut size pl.pages ≠ [] := by
              intro hceq
              rw [hceq, tilesFrom_nil] at hc
              omega
            rw [tilesFrom_lastNext hc hcne]
            exact hc
          · left
            show resizeCut size pl.pages = []
            exact resizeCut_eq_nil h (by omega)
      case isFalse h2 => exact (Compress_spec h).1

theorem tilesFrom_WFpages {ps : List fdpage} {b : Int} (h : tilesFrom 0 ps b) :
    WFpages ps := by
  cases ps with
  | nil => exact Or.inl rfl
  | cons p rest =>
    refine Or.inr (Or.inr ?_)
    rw [tilesFrom_lastNext h (by simp)]
    exact h

theorem parseLoop_tiles {ps : List fdpage} : ∀ {a b pos : Int} {ps' : List fdpage},
    tilesFrom a ps b → parseLoop pos ps = some ps' → tilesFrom a ps' b := by
  induction ps with
  | nil => intro a b pos ps' _ hp; simp [parseLoop] at hp
  | cons p rest ih =>
    intro a b pos ps' h hp
    rw [tilesFrom_cons] at h
    obtain ⟨ho, hb, ht⟩ := h
    subst ho
    simp only [parseLoop] at hp
    split at hp
    case isTrue heq =>
      cases hp
      exact tilesFrom_cons.2 ⟨rfl, hb, ht⟩
    case isFalse heq =>
      split at hp
      case isTrue hin =>
        cases hp
        have hn : p.next = p.offset + p.bytes := rfl
        rw [tilesFrom_cons]
        refine ⟨rfl, show (0 : Int) < pos - p.offset by omega, ?_⟩
        show tilesFrom (fdpage.next ⟨p.offset, pos - p.offset, p.loaded, p.modified⟩)
          (⟨pos, p.next - pos, p.loaded, p.modified⟩ :: rest) b
        have hx : (fdpage.mk p.offset (pos - p.offset) p.loaded p.modified).next = pos := by
          show p.offset + (pos - p.offset) = pos
          ring
        rw [hx, tilesFrom_cons]
        refine ⟨rfl, show (0 : Int) < p.next - pos by omega, ?_⟩
        have hy : (fdpage.mk pos (p.next - pos) p.loaded p.modified).next = p.next := by
          show pos + (p.next - pos) = p.next
          ring
        rw [hy]
        exact ht
      case isFalse hin =>
        rw [Option.map_eq_some'] at hp
        obtain ⟨rest', hr, hps'⟩ := hp
        subst hps'
        exact tilesFrom_cons.2 ⟨rfl, hb, ih ht hr⟩

theorem Parse_WF {pl : PageList} (h : pl.WF) (pos : Int) : (pl.Parse pos).2.WF := by
  unfold PageList.Parse
  rcases heq : parseLoop pos pl.pages with - | ps'
  · exact h
  · simp only
    rcases h with h | ⟨l, m, h⟩ | h
    · rw [h] at heq
      simp [parseLoop] at heq
    · rw [h] at heq
      by_cases hpos : pos = 0
      · subst hpos
        have hps : ps' = [fdpage.mk 0 0 l m] := by
          simp [parseLoop] at heq
          first
          | exact heq.symm
          | exact heq
        refine Or.inr (Or.inl ⟨l, m, ?_⟩)
        show ps' = [fdpage.mk 0 0 l m]
        exact hps
      · have hc2 : ¬((fdpage.mk 0 0 l m).offset < pos ∧ pos < (fdpage.mk 0 0 l m).next) := by
          show ¬((0 : Int) < pos ∧ pos < fdpage.next ⟨0, 0, l, m⟩)
          simp only [fdpage.next]
          omega
        simp only [parseLoop, hc2, if_false] at heq
        rw [if_neg (by simpa using hpos)] at heq
        simp at heq
    · show WFpages ps'
      exact tilesFrom_WFpages (parseLoop_tiles h heq)

/-- Shapes of a page list: the offset/length skeleton, ignoring flags. -/
def pageShape (p : fdpage) : Int × Int := (p.offset, p.bytes)

theorem tilesFrom_congr {ps : List fdpage} : ∀ {qs : List fdpage} {a b : Int},
    ps.map pageShape = qs.map pageShape → tilesFrom a ps b → tilesFrom a qs b := by
  induction ps with
  | nil =>
    intro qs a b hsh h
    cases qs with
    | nil => exact h
    | cons q qs' => simp at hsh
  | cons p rest ih =>
    intro qs a b hsh h
    cases qs with
    | nil => simp at hsh
    | cons q qs' =>
      simp only [List.map_cons, List.cons.injEq] at hsh
      have ho : p.offset = q.offset := congrArg Prod.fst hsh.1
      have hb : p.bytes = q.bytes := congrArg Prod.snd hsh.1
      rw [tilesFrom_cons] at h ⊢
      have hn : q.next = p.next := by
        show q.offset + q.bytes = p.offset + p.bytes
        omega
      exact ⟨ho ▸ h.1, hb ▸ h.2.1, hn ▸ ih hsh.2 h.2.2⟩

theorem lastNext_congr {ps : List fdpage} : ∀ {qs : List fdpage},
    ps.map pageShape = qs.map pageShape → lastNext ps = lastNext qs := by
  induction ps with
  | nil =>
    intro qs hsh
    cases qs with
    | nil => rfl
    | cons q qs' => simp at hsh
  | cons p rest ih =>
    intro qs hsh
    cases qs with
    | nil => simp at hsh
    | cons q qs' =>
      simp only [List.map_cons, List.cons.injEq] at hsh
      cases rest with
      | nil =>
        cases qs' with
        | cons r' rest'' => simp at hsh
        | nil =>
          rw [lastNext_singleton, lastNext_singleton]
          show p.offset + p.bytes = q.offset + q.bytes
          have ho : p.offset = q.offset := congrArg Prod.fst hsh.1
          have hb : p.bytes = q.bytes := congrArg Prod.snd hsh.1
          omega
      | cons r rest' =>
        cases qs' with
        | nil => simp at hsh
        | cons r' rest'' =>
          rw [lastNext_cons_cons, lastNext_cons_cons]
          exact ih hsh.2

theorem WFpages_congr {ps qs : List fdpage} (hw : WFpages ps)
    (hsh : ps.map pageShape = qs.map pageShape) : WFpages qs := by
  rcases hw with h | ⟨l, m, h⟩ | h
  · subst h
    cases qs with
    | nil => exact Or.inl rfl
    | cons q qs' => simp at hsh
  · subst h
    cases qs with
    | nil => simp at hsh
    | cons q qs' =>
      simp only [List.map_cons, List.cons.injEq] at hsh
      cases qs' with
      | cons r' rest'' => simp at hsh
      | nil =>
      have ho : (0 : Int) = q.offset := congrArg Prod.fst hsh.1
      have hb : (0 : Int) = q.bytes := congrArg Prod.snd hsh.1
      refine Or.inr (Or.inl ⟨q.loaded, q.modified, ?_⟩)
      rw [show q = fdpage.mk q.offset q.bytes q.loaded q.modified from rfl, ← ho, ← hb]
  · exact tilesFrom_WFpages (lastNext_congr hsh ▸ tilesFrom_congr hsh h)

theorem setStatusLoop_shape (start next_ : Int) (l m : Bool) : ∀ ps : List fdpage,
    (setStatusLoop start next_ l m ps).map pageShape = ps.map pageShape := by
  intro ps
  induction ps with
  | nil => rfl
  | cons p rest ih =>
    rw [setStatusLoop]
    split
    · simp only [List.map_cons, ih]
    · split
      · rfl
      · simp only [List.map_cons, ih]
        rfl

theorem SetPageLoadedStatus_WF {pl : PageList} (h : pl.WF) (start size : Int)
    (st : page_status) (ic : Bool) : (pl.SetPageLoadedStatus start size st ic).WF := by
  unfold PageList.SetPageLoadedStatus
  simp only
  have hbig : ∀ pl'' : PageList, pl''.WF → (if ic then pl''.Compress else pl'').WF := by
    intro pl'' hw
    split
    · exact (Compress_spec hw).1
    · exact hw
  apply hbig
  split
  · refine Resize_WF ?_ _ _ _
    split
    · exact Resize_WF h _ _ _
    · exact h
  · split
    · exact Resize_WF (Resize_WF h _ _ _) _ _ _
    · have hw1 := Parse_WF h start
      have hw2 := Parse_WF hw1 (start + size)
      show WFpages (setStatusLoop start (start + size) _ _ ((((pl.Parse start).2).Parse (start + size)).2.pages))
      exact WFpages_congr hw2 (setStatusLoop_shape _ _ _ _ _).symm

theorem ClearAllModified_WF {pl : PageList} (h : pl.WF) : pl.ClearAllModified.WF := by
  unfold PageList.ClearAllModified
  refine (Compress_spec ?_).1
  show WFpages (pl.pages.map fun p => { p with modified := false })
  refine WFpages_congr h ?_
  rw [List.map_map]
  rfl

/-- The public `PageList` operations named by the history claim. -/
inductive PLOp where
  | init (size : Int) (l m : Bool)
  | resize (size : Int) (l m : Bool)
  | parse (pos : Int)
  | setStatus (start size : Int) (st : page_status) (compress : Bool)
  | compress
  | clearAll
deriving Repr, DecidableEq

/-- Apply one public operation to a page list. -/
def applyOp (pl : PageList) : PLOp → PageList
  | .init s l m => PageList.Init s l m
  | .resize s l m => pl.Resize s l m
  | .parse pos => (pl.Parse pos).2
  | .setStatus a b st c => pl.SetPageLoadedStatus a b st c
  | .compress => pl.Compress
  | .clearAll => pl.ClearAllModified

/-- Run a sequence of public operations. -/
def runOps (pl : PageList) (ops : List PLOp) : PageList := ops.foldl applyOp pl

theorem applyOp_WF {pl : PageList} (h : pl.WF) (op : PLOp) : (applyOp pl op).WF := by
  cases op with
  | init s l m => exact Init_WF s l m
  | resize s l m => exact Resize_WF h s l m
  | parse pos => exact Parse_WF h pos
  | setStatus a b st c => exact SetPageLoadedStatus_WF h a b st c
  | compress => exact (Compress_spec h).1
  | clearAll => exact ClearAllModified_WF h

theorem runOps_WF {pl : PageList} (h : pl.WF) (ops : List PLOp) : (runOps pl ops).WF := by
  induction ops generalizing pl with
  | nil => exact h
  | cons op rest ih => exact ih (applyOp_WF h op)

theorem tilesFrom_adjacent {ps : List fdpage} : ∀ {a b : Int}, tilesFrom a ps b →
    ∀ i, (hi : i + 1 < ps.length) →
      (ps.get ⟨i, Nat.lt_of_succ_lt hi⟩).next = (ps.get ⟨i + 1, hi⟩).offset := by
  induction ps with
  | nil => intro a b _ i hi; simp at hi
  | cons p rest ih =>
    intro a b h i hi
    rw [tilesFrom_cons] at h
    cases i with
    | zero =>
      cases rest with
      | nil => simp at hi
      | cons q rest' =>
        have h2 := h.2.2
        rw [tilesFrom_cons] at h2
        exact h2.1.symm
    | succ j =>
      exact ih h.2.2 j (by simpa using hi)

theorem WFpages_invariants {ps : List fdpage} (hw : WFpages ps) (hne : ps ≠ []) :
    (ps.head hne).offset = 0 ∧
    (∀ i, (hi : i + 1 < ps.length) →
      (ps.get ⟨i, Nat.lt_of_succ_lt hi⟩).next = (ps.get ⟨i + 1, hi⟩).offset) ∧
    lastNext ps = (ps.getLast hne).next := by
  have hlast : lastNext ps = (ps.getLast hne).next := by
    unfold lastNext
    rw [List.getLast?_eq_getLast ps hne]
  rcases hw with h | ⟨l, m, h⟩ | h
  · exact absurd h hne
  · subst h
    refine ⟨rfl, ?_, hlast⟩
    intro i hi
    simp at hi
  · refine ⟨?_, fun i hi => tilesFrom_adjacent h i hi, hlast⟩
    cases ps with
    | nil => exact absurd rfl hne
    | cons p rest =>
      rw [tilesFrom_cons] at h
      exact h.1

/-- C1: for every sequence of public PageList operations (Init, Resize,
Parse, SetPageLoadedStatus, Compress, ClearAllModified) starting from Init,
the resulting page list, when non-empty, satisfies: the first page starts
at offset 0; each page ends exactly where the following page begins (no
gaps, no overlaps); and `Size()` equals the last page's offset plus its
length. -/
theorem C1_pagelist_invariants (size : Int) (l m : Bool) (ops : List PLOp)
    (hne : (runOps (PageList.Init size l m) ops).pages ≠ []) :
    ((runOps (PageList.Init size l m) ops).pages.head hne).offset = 0 ∧
    (∀ i, (hi : i + 1 < (runOps (PageList.Init size l m) ops).pages.length) →
      ((runOps (PageList.Init size l m) ops).pages.get ⟨i, Nat.lt_of_succ_lt hi⟩).next =
        ((runOps (PageList.Init size l m) ops).pages.get ⟨i + 1, hi⟩).offset) ∧
    (runOps (PageList.Init size l m) ops).Size =
      ((runOps (PageList.Init size l m) ops).pages.getLast hne).next :=
  WFpages_invariants (runOps_WF (Init_WF size l m) ops) hne

/-- Witness for C1 at a concrete operation history. -/
theorem C1_pagelist_invariants_witness :
    (runOps (PageList.Init 10 false false)
        [.setStatus 2 3 .MODIFIED true, .resize 20 true false, .parse 7]).pages ≠ [] ∧
    ((runOps (PageList.Init 10 false false)
        [.setStatus 2 3 .MODIFIED true, .resize 20 true false, .parse 7]).pages.head
        (by decide)).offset = 0 := by
  constructor
  · decide
  · exact (C1_pagelist_invariants 10 false false
      [.setStatus 2 3 .MODIFIED true, .resize 20 true false, .parse 7] (by decide)).1

/-- C10: if Instruct or AwaitInstruct is called while the worker-pool
singleton does not exist, the call returns false immediately (it neither
enqueues a job, blocks, nor aborts): the result is an ordinary return of
`false` with the global state unchanged. -/
theorem C10_no_singleton_dispatch (g : ThreadPoolGlobal) (param : thpoolman_param)
    (h : g.singleton = none) :
    ThreadPoolMan.Instruct g param = .ret false g ∧
    ThreadPoolMan.AwaitInstruct g param = .ret false g := by
  unfold ThreadPoolMan.Instruct ThreadPoolMan.AwaitInstruct
  rw [h]
  exact ⟨rfl, rfl⟩

/-- Witness for C10 at a concrete state. -/
theorem C10_no_singleton_dispatch_witness :
    (ThreadPoolGlobal.mk none).singleton = none ∧
    ThreadPoolMan.Instruct ⟨none⟩ ⟨true⟩ = .ret false ⟨none⟩ :=
  ⟨rfl, (C10_no_singleton_dispatch ⟨none⟩ ⟨true⟩ rfl).1⟩

/-- C4 counterexample: in the padding branch of the planner walk (previous
page modified and shorter than MIN, current unmodified, missing + MIN <
current length), the carried remainder keeps `modified = false` (copied
from the current page), not `modified = true` as the claim states.  Here
MIN = 5, prev = (0,1,modified), cur = (1,20,unmodified): missing = 4 and
the carried page is (5,16) with modified = false. -/
theorem C4_carry_counterexample :
    (mpuStep 5 (⟨0, 1, false, true⟩, [], []) ⟨1, 20, false, false⟩).1 =
      fdpage.mk 5 16 false false ∧
    ¬((mpuStep 5 (⟨0, 1, false, true⟩, [], []) ⟨1, 20, false, false⟩).1.modified = true) := by
  decide

/-- C4 (amended): in the planner walk, whenever prev is modified with
length < MIN, the current page is unmodified, and missing + MIN <
current.length (missing = MIN - prev.length): the first missing bytes of
current are appended to the download list as `(current.offset, missing,
false, false)`, prev is emitted grown to exactly MIN (keeping its
modified = true tag, i.e. as a PUT part), and the carried remainder is
`(current.offset + missing, current.length - missing)` with current's own
flags — in particular `modified = false`, not `modified = true`. -/
theorem C4_padding_branch (minSize : Int) (prev cur : fdpage)
    (dl mix : List fdpage)
    (hc : cur.modified = false) (hp : prev.modified = true)
    (hlt : prev.bytes < minSize)
    (hmiss : (minSize - prev.bytes) + minSize < cur.bytes) :
    mpuStep minSize (prev, dl, mix) cur =
      (⟨cur.offset + (minSize - prev.bytes), cur.bytes - (minSize - prev.bytes),
          cur.loaded, false⟩,
       dl ++ [⟨cur.offset, minSize - prev.bytes, false, false⟩],
       mix ++ [{ prev with bytes := minSize }]) := by
  obtain ⟨co, cb, cl, cm⟩ := cur
  obtain ⟨po, pb, pld, pm⟩ := prev
  simp only at hc hp
  subst hc
  subst hp
  simp only [mpuStep, Bool.false_eq_true, if_false, Bool.not_true, Bool.false_eq_true,
    if_pos hlt, if_pos hmiss]

/-- Witness for the amended C4 at concrete inputs. -/
theorem C4_padding_branch_witness :
    mpuStep 5 (⟨0, 1, false, true⟩, [], []) ⟨1, 20, false, false⟩ =
      (⟨5, 16, false, false⟩, [⟨1, 4, false, false⟩], [⟨0, 5, false, true⟩]) := by
  have h := C4_padding_branch 5 ⟨0, 1, false, true⟩ ⟨1, 20, false, false⟩ [] []
    rfl rfl (by decide) (by decide)
  simpa using h

/-- C3 counterexample: with MIN = 1, MAX = 2 the claim "every page in both
output lists has length at most MAX" fails twice over.  An entirely loaded
unmodified list of length 10 yields a single COPY mixupload page of length
10 > MAX (unmodified pages are never split), and an entirely modified list
of length 4 = 2*MAX yields a single PUT page of length 4 > MAX (the final
chunk of a modified page may reach 2*MAX). -/
theorem C3_maxsize_counterexample :
    (PageList.mk [⟨0, 10, true, false⟩] false).WF ∧ (0 : Int) < 1 ∧ 2 * 1 ≤ (2 : Int) ∧
    (((PageList.mk [⟨0, 10, true, false⟩] false).GetPageListsForMultipartUpload 1 2).2.all
      fun p => decide (p.bytes ≤ 2)) = false ∧
    (PageList.mk [⟨0, 4, false, true⟩] false).WF ∧
    (((PageList.mk [⟨0, 4, false, true⟩] false).GetPageListsForMultipartUpload 1 2).2.all
      fun p => decide (p.bytes ≤ 2 ∨ p.modified = false)) = false := by
  decide

theorem splitChunksFuel_bytes_le {maxp : Int} (hm : 0 < maxp) (tmpl : fdpage) :
    ∀ (fuel : Nat) (start rest : Int) (q : fdpage),
      q ∈ splitChunksFuel maxp tmpl fuel start rest → q.bytes ≤ 2 * maxp := by
  intro fuel
  induction fuel with
  | zero => intro start rest q hq; simp [splitChunksFuel] at hq
  | succ f ih =>
    intro start rest q hq
    rw [splitChunksFuel] at hq
    split at hq
    case isTrue h1 =>
      split at hq
      case isTrue h2 =>
        rcases List.mem_cons.1 hq with h3 | h3
        · subst h3
          show maxp ≤ 2 * maxp
          omega
        · exact ih _ _ q h3
      case isFalse h2 =>
        simp only [List.mem_singleton] at hq
        subst hq
        show rest ≤ 2 * maxp
        rw [not_and_or] at h2
        rcases h2 with h2 | h2 <;> omega
    case isFalse h1 => simp at hq

theorem parse_partsize_modified_le {ps : List fdpage} {maxp : Int} (hm : 0 < maxp)
    (q : fdpage) (hq : q ∈ parse_partsize_fdpage_list ps maxp)
    (hmod : q.modified = true) : q.bytes ≤ 2 * maxp := by
  unfold parse_partsize_fdpage_list at hq
  rw [List.mem_flatMap] at hq
  obtain ⟨p, -, hq2⟩ := hq
  split at hq2
  · exact splitChunksFuel_bytes_le hm p _ _ _ q hq2
  case isFalse hp =>
    simp only [List.mem_singleton] at hq2
    subst hq2
    exact absurd hmod hp

/-- C3 (amended): for every page list and every MIN > 0 and MAX ≥ 2*MIN,
every **modified** (PUT) page in both output lists of
GetPageListsForMultipartUpload has length at most **2*MAX**: PUT pages are
chunked into MAX-byte pieces with a final piece of up to 2*MAX bytes,
while unmodified (COPY) pages pass through unchanged and their length is
not bounded by MAX at all. -/
theorem C3_maxsize_amended (pl : PageList) (minSize maxp : Int)
    (hmin : 0 < minSize) (hmax : 2 * minSize ≤ maxp) (q : fdpage)
    (hq : q ∈ (pl.GetPageListsForMultipartUpload minSize maxp).1 ∨
          q ∈ (pl.GetPageListsForMultipartUpload minSize maxp).2)
    (hmod : q.modified = true) : q.bytes ≤ 2 * maxp := by
  have hm : 0 < maxp := by omega
  unfold PageList.GetPageListsForMultipartUpload at hq
  simp only at hq
  rcases hq with hq | hq
  · exact parse_partsize_modified_le hm q hq hmod
  · exact parse_partsize_modified_le hm q hq hmod

/-- Witness for the amended C3 at a concrete input. -/
theorem C3_maxsize_amended_witness :
    fdpage.mk 0 4 false true ∈
      ((PageList.mk [⟨0, 4, false, true⟩] false).GetPageListsForMultipartUpload 1 2).2 ∧
    (fdpage.mk 0 4 false true).bytes ≤ 2 * 2 :=
  ⟨by decide, C3_maxsize_amended (PageList.mk [⟨0, 4, false, true⟩] false) 1 2
    (by decide) (by decide) (fdpage.mk 0 4 false true) (Or.inr (by decide)) rfl⟩

/-- Contribution of one page to the unloaded-byte total, written from the
spec: the intersection length of the page with `[start, qend)` when the
page is unloaded-and-unmodified, excluded when a positive `limit` does not
exceed that intersection length. -/
def specContrib (start qend limit : Int) (p : fdpage) : Int :=
  if p.loaded || p.modified then 0
  else
    let inter := min p.next qend - max p.offset start
    if 0 < inter ∧ (limit = 0 ∨ inter < limit) then inter else 0

/-- The spec-side total of `GetTotalUnloadedPageSize`: sum of clipped
intersection lengths of the unloaded-and-unmodified pages, with positive
`limit` excluding pages whose **intersection** length reaches it
(`length = 0` queries to the end of the list). -/
def spec_unloaded_sum (pl : PageList) (start size limit : Int) : Int :=
  let size := if size = 0 then (if start < pl.Size then pl.Size - start else size) else size
  (pl.pages.map (specContrib start (start + size) limit)).sum

/-- The claim-side total, written from the claim's words: like
`spec_unloaded_sum` but a positive `limit` excludes pages whose **total**
length reaches it. -/
def claim_unloaded_sum (pl : PageList) (start size limit : Int) : Int :=
  let size := if size = 0 then (if start < pl.Size then pl.Size - start else size) else size
  (pl.pages.map fun p =>
    if p.loaded || p.modified then 0
    else
      let inter := min p.next (start + size) - max p.offset start
      if 0 < inter ∧ (limit = 0 ∨ p.bytes < limit) then inter else 0).sum

theorem specContrib_nonpos {start qend limit : Int} {p : fdpage}
    (h : min p.next qend ≤ max p.offset start) : specContrib start qend limit p = 0 := by
  unfold specContrib
  split
  · rfl
  · rw [if_neg]
    intro hc
    omega

theorem sum_specContrib_zero {start qend limit : Int} : ∀ {ps : List fdpage},
    (∀ q ∈ ps, qend ≤ q.offset) → (ps.map (specContrib start qend limit)).sum = 0 := by
  intro ps
  induction ps with
  | nil => intro _; rfl
  | cons p rest ih =>
    intro h
    rw [List.map_cons, List.sum_cons, ih (fun q hq => h q (List.mem_cons_of_mem p hq))]
    rw [specContrib_nonpos]
    · ring
    · have h1 := h p (List.mem_cons_self p rest)
      have h2 : min p.next qend ≤ qend := min_le_right _ _
      have h3 : p.offset ≤ max p.offset start := le_max_left _ _
      omega

theorem gtupsLoop_eq_sum {ps : List fdpage} : ∀ {a b start qend limit : Int},
    tilesFrom a ps b → start ≤ qend →
    gtupsLoop start qend limit ps = (ps.map (specContrib start qend limit)).sum := by
  induction ps with
  | nil => intro a b start qend limit _ _; rfl
  | cons p rest ih =>
    intro a b start qend limit h hsq
    rw [tilesFrom_cons] at h
    obtain ⟨ho, hb, ht⟩ := h
    rw [gtupsLoop, List.map_cons, List.sum_cons]
    by_cases h1 : p.next ≤ start
    · rw [if_pos h1, ih ht hsq, specContrib_nonpos]
      · ring
      · have h2 : min p.next qend ≤ p.next := min_le_left _ _
        have h3 : start ≤ max p.offset start := le_max_right _ _
        omega
    · rw [if_neg h1]
      by_cases h2 : qend ≤ p.offset
      · rw [if_pos h2]
        have hz : ((p :: rest).map (specContrib start qend limit)).sum = 0 := by
          refine sum_specContrib_zero ?_
          intro q hq
          rcases List.mem_cons.1 hq with h3 | h3
          · subst h3; exact h2
          · have h4 := (tilesFrom_mem_bounds ht h3).1
            have h5 : p.next = p.offset + p.bytes := rfl
            omega
        rw [List.map_cons, List.sum_cons] at hz
        omega
      · rw [if_neg h2]
        by_cases h3 : p.loaded || p.modified
        · rw [if_pos h3, ih ht hsq]
          unfold specContrib
          rw [if_pos h3]
          ring
        · rw [if_neg h3, ih ht hsq]
          have hspec : specContrib start qend limit p =
              (if 0 < min p.next qend - max p.offset start ∧
                  (limit = 0 ∨ min p.next qend - max p.offset start < limit) then
                min p.next qend - max p.offset start else 0) := by
            unfold specContrib
            rw [if_neg h3]
          rw [hspec]
          have hinter : (if p.offset ≤ start then
                if p.next ≤ qend then p.next - start else qend - start
              else
                if p.next ≤ qend then p.next - p.offset else qend - p.offset) =
              min p.next qend - max p.offset start := by
            by_cases c1 : p.offset ≤ start
            · rw [if_pos c1, max_eq_right c1]
              by_cases c2 : p.next ≤ qend
              · rw [if_pos c2, min_eq_left c2]
              · rw [if_neg c2, min_eq_right (by omega)]
            · rw [if_neg c1, max_eq_left (by omega)]
              by_cases c2 : p.next ≤ qend
              · rw [if_pos c2, min_eq_left c2]
              · rw [if_neg c2, min_eq_right (by omega)]
          rw [hinter]
          set t := min p.next qend - max p.offset start with hts
          have htnn : 0 ≤ t := by
            have hn : p.next = p.offset + p.bytes := rfl
            have e1 : min p.next qend = if p.next ≤ qend then p.next else qend := by
              split
              · exact min_eq_left (by assumption)
              · exact min_eq_right (by omega)
            have e2 : max p.offset start = if p.offset ≤ start then start else p.offset := by
              split
              · exact max_eq_right (by assumption)
              · exact max_eq_left (by omega)
            rw [hts, e1, e2]
            split <;> split <;> omega
          by_cases h0 : 0 < t
          · simp only [h0, true_and]
          · have ht0 : t = 0 := by omega
            rw [ht0]
            simp

theorem gtupsLoop_zero_singleton (l m : Bool) (start qend limit : Int) :
    gtupsLoop start qend limit [⟨0, 0, l, m⟩] = 0 := by
  have hn : (fdpage.mk 0 0 l m).next = 0 := by
    show (0 : Int) + 0 = 0
    ring
  have hoff : (fdpage.mk 0 0 l m).offset = 0 := rfl
  rw [gtupsLoop]
  by_cases h1 : (fdpage.mk 0 0 l m).next ≤ start
  · rw [if_pos h1]; rfl
  · rw [if_neg h1]
    by_cases h2 : qend ≤ (fdpage.mk 0 0 l m).offset
    · rw [if_pos h2]
    · rw [if_neg h2]
      by_cases h3 : (fdpage.mk 0 0 l m).loaded || (fdpage.mk 0 0 l m).modified
      · rw [if_pos h3]; rfl
      · rw [if_neg h3]
        rw [hn] at h1
        rw [hoff] at h2
        rw [if_neg (show ¬((fdpage.mk 0 0 l m).offset ≤ start) by rw [hoff]; omega)]
        rw [if_pos (show (fdpage.mk 0 0 l m).next ≤ qend by rw [hn]; omega)]
        rw [hn, hoff]
        simp [gtupsLoop]

/-- C6 counterexample: the positive `limit` excludes by the clipped
intersection length, not by the page's total length.  On the single
unloaded page `(0,100)` with query `[0,10)` and `limit = 50`, the code
returns 10 (the intersection 10 is below the limit) while the claim, which
excludes the page because its total length 100 >= 50, demands 0. -/
theorem C6_limit_counterexample :
    (PageList.mk [⟨0, 100, false, false⟩] false).WF ∧
    (PageList.mk [⟨0, 100, false, false⟩] false).GetTotalUnloadedPageSize 0 10 50 = 10 ∧
    claim_unloaded_sum (PageList.mk [⟨0, 100, false, false⟩] false) 0 10 50 = 0 ∧
    (PageList.mk [⟨0, 100, false, false⟩] false).GetTotalUnloadedPageSize 0 10 50 ≠
      claim_unloaded_sum (PageList.mk [⟨0, 100, false, false⟩] false) 0 10 50 := by
  decide

/-- C6 (amended): for every well-formed page list, every start, every
length >= 0 and every limit, `GetTotalUnloadedPageSize(start, length,
limit)` returns the sum of the intersection lengths with
`[start, start+length)` over pages that are unloaded-and-unmodified,
where, when `limit > 0`, the contribution of every such page whose
**intersection** length is >= limit is excluded (length = 0 meaning to the
end of the list). -/
theorem C6_unloaded_total (pl : PageList) (hw : pl.WF) (start size limit : Int)
    (hsz : 0 ≤ size) :
    pl.GetTotalUnloadedPageSize start size limit = spec_unloaded_sum pl start size limit := by
  unfold PageList.GetTotalUnloadedPageSize spec_unloaded_sum
  simp only
  set size' := if size = 0 then (if start < pl.Size then pl.Size - start else size) else size
    with hs'
  have hq : start ≤ start + size' := by
    have : 0 ≤ size' := by
      rw [hs']
      split
      · split <;> omega
      · omega
    omega
  rcases hw with h | ⟨l, m, h⟩ | h
  · rw [h]; rfl
  · rw [h]
    rw [gtupsLoop_zero_singleton, List.map_cons, List.map_nil, List.sum_cons, List.sum_nil]
    rw [specContrib_nonpos]
    · ring
    · have e1 : (fdpage.mk 0 0 l m).next = 0 := by
        show (0 : Int) + 0 = 0
        ring
      have e2 : (fdpage.mk 0 0 l m).offset = 0 := rfl
      have e3 : min (fdpage.mk 0 0 l m).next (start + size') ≤ 0 :=
        e1 ▸ min_le_left _ _
      have e4 : (0 : Int) ≤ max (fdpage.mk 0 0 l m).offset start :=
        e2 ▸ le_max_left _ _
      omega
  · exact gtupsLoop_eq_sum h hq

/-- Witness for the amended C6 at a concrete input. -/
theorem C6_unloaded_total_witness :
    (PageList.mk [⟨0, 100, false, false⟩] false).WF ∧
    (PageList.mk [⟨0, 100, false, false⟩] false).GetTotalUnloadedPageSize 0 10 50 =
      spec_unloaded_sum (PageList.mk [⟨0, 100, false, false⟩] false) 0 10 50 :=
  ⟨by decide, C6_unloaded_total (PageList.mk [⟨0, 100, false, false⟩] false)
    (by decide) 0 10 50 (by decide)⟩

/-- Like `tilesFrom`, but zero-length pages are tolerated (they must still
sit at the right offset).  This is the shape of the planner's intermediate
lists, whose zero-length entries are dropped by the final compression. -/
def tilesFromZ : Int → List fdpage → Int → Prop
  | a, [], b => a = b
  | a, p :: rest, b => p.offset = a ∧ 0 ≤ p.bytes ∧ tilesFromZ p.next rest b

theorem tilesFromZ_nil {a b : Int} : tilesFromZ a [] b ↔ a = b := by
  simp [tilesFromZ]

theorem tilesFromZ_cons {a b : Int} {p : fdpage} {ps : List fdpage} :
    tilesFromZ a (p :: ps) b ↔ p.offset = a ∧ 0 ≤ p.bytes ∧ tilesFromZ p.next ps b := by
  simp [tilesFromZ]

theorem tilesFrom_weaken {ps : List fdpage} : ∀ {a b : Int},
    tilesFrom a ps b → tilesFromZ a ps b := by
  induction ps with
  | nil => intro a b h; rw [tilesFrom_nil] at h; exact tilesFromZ_nil.2 h
  | cons p rest ih =>
    intro a b h
    rw [tilesFrom_cons] at h
    exact tilesFromZ_cons.2 ⟨h.1, le_of_lt h.2.1, ih h.2.2⟩

theorem tilesFromZ_concat {xs : List fdpage} : ∀ {a : Int} {p : fdpage},
    tilesFromZ a xs p.offset → 0 ≤ p.bytes → tilesFromZ a (xs ++ [p]) p.next := by
  induction xs with
  | nil =>
    intro a p h hb
    rw [tilesFromZ_nil] at h
    exact tilesFromZ_cons.2 ⟨h.symm, hb, tilesFromZ_nil.2 rfl⟩
  | cons q rest ih =>
    intro a p h hb
    rw [tilesFromZ_cons] at h
    exact tilesFromZ_cons.2 ⟨h.1, h.2.1, ih h.2.2 hb⟩

theorem tilesFrom_concat {xs : List fdpage} : ∀ {a : Int} {p : fdpage},
    tilesFrom a xs p.offset → 0 < p.bytes → tilesFrom a (xs ++ [p]) p.next := by
  intro a p h hb
  refine tilesFrom_append h ?_
  exact tilesFrom_cons.2 ⟨rfl, hb, tilesFrom_nil.2 rfl⟩

theorem tilesFrom_append_split {xs : List fdpage} : ∀ {ys : List fdpage} {e b : Int},
    tilesFrom e (xs ++ ys) b → ∃ m, tilesFrom e xs m ∧ tilesFrom m ys b := by
  induction xs with
  | nil => intro ys e b h; exact ⟨e, tilesFrom_nil.2 rfl, h⟩
  | cons p rest ih =>
    intro ys e b h
    rw [List.cons_append, tilesFrom_cons] at h
    obtain ⟨m, h1, h2⟩ := ih h.2.2
    exact ⟨m, tilesFrom_cons.2 ⟨h.1, h.2.1, h1⟩, h2⟩


theorem raw_add_pos {acc : List fdpage} {p : fdpage} {il im dl dm : Bool}
    (h : 0 < p.bytes) :
    raw_add_compress_fdpage_list acc p il im dl dm =
      acc ++ [⟨p.offset, p.bytes, (if il then dl else p.loaded),
        (if im then dm else p.modified)⟩] := by
  unfold raw_add_compress_fdpage_list
  rw [if_pos h]

theorem rawCompressLoop_tiles_aux {il im dl dm : Bool} : ∀ (ps acc : List fdpage) {e b : Int},
    acc ≠ [] → tilesFrom e acc (lastNext acc) → tilesFromZ (lastNext acc) ps b →
    tilesFrom e (rawCompressLoop il im dl dm acc ps) b := by
  intro ps
  induction ps with
  | nil =>
    intro acc e b hne ht hz
    rw [tilesFromZ_nil] at hz
    rw [rawCompressLoop]
    exact hz ▸ ht
  | cons p rest ih =>
    intro acc e b hne ht hz
    rw [tilesFromZ_cons] at hz
    obtain ⟨ho, hb0, hz'⟩ := hz
    rw [rawCompressLoop]
    by_cases hzero : p.bytes = 0
    · rw [if_pos hzero]
      have hn : p.next = lastNext acc := by
        show p.offset + p.bytes = lastNext acc
        omega
      exact ih acc hne ht (hn ▸ hz')
    · rw [if_neg hzero]
      have hbpos : 0 < p.bytes := by omega
      obtain ⟨last, hlast⟩ : ∃ last, acc.getLast? = some last := by
        cases hacc : acc.getLast? with
        | none => exact absurd (List.getLast?_eq_none_iff.1 hacc) hne
        | some q => exact ⟨q, rfl⟩
      simp only [hlast]
      have hlnext : last.next = lastNext acc := by
        unfold lastNext
        rw [hlast]
      have hcond : ¬(last.next ≠ p.offset) := by rw [hlnext, ho]; simp
      rw [if_neg hcond]
      simp only [hlast, Option.getD_some]
      have hdrop : acc.dropLast ++ [last] = acc := by
        have h3 := List.getLast?_eq_getLast acc hne
        rw [h3, Option.some.injEq] at hlast
        rw [← hlast]
        exact List.dropLast_append_getLast hne
      split
      · -- flags differ: a new output page is appended for the current input
        rw [raw_add_pos hbpos]
        set p' : fdpage :=
          (⟨p.offset, p.bytes, (if il then dl else p.loaded),
            (if im then dm else p.modified)⟩ : fdpage) with hp'
        refine ih (acc ++ [p']) (by simp) ?_ ?_
        · rw [lastNext_concat]
          refine tilesFrom_concat ?_ ?_
          · show tilesFrom e acc p.offset
            rw [ho]
            exact ht
          · show 0 < p.bytes
            exact hbpos
        · rw [lastNext_concat]
          show tilesFromZ p.next rest b
          exact hz'
      · -- flags agree: the current input page is merged into the last output page
        have ht' : tilesFrom e (acc.dropLast ++ [last]) (lastNext acc) := by
          rw [hdrop]
          exact ht
        obtain ⟨m, hm1, hm2⟩ := tilesFrom_append_split ht'
        rw [tilesFrom_cons] at hm2
        set last' : fdpage := { last with bytes := last.bytes + p.bytes } with hl'
        have hlb : 0 < last.bytes := hm2.2.1
        refine ih (acc.dropLast ++ [last']) (by simp) ?_ ?_
        · rw [lastNext_concat]
          refine tilesFrom_concat ?_ ?_
          · show tilesFrom e acc.dropLast last.offset
            rw [hm2.1]
            exact hm1
          · show 0 < last.bytes + p.bytes
            omega
        · rw [lastNext_concat]
          show tilesFromZ (last.offset + (last.bytes + p.bytes)) rest b
          have h4 : last.next = last.offset + last.bytes := rfl
          have h5 : p.next = p.offset + p.bytes := rfl
          have h6 : last.offset + (last.bytes + p.bytes) = p.next := by omega
          rw [h6]
          exact hz'

theorem raw_compress_tiles {il im dl dm : Bool} : ∀ {ps : List fdpage} {a b : Int},
    tilesFromZ a ps b →
    (raw_compress_fdpage_list ps il im dl dm = [] ∧ a = b) ∨
    tilesFrom a (raw_compress_fdpage_list ps il im dl dm) b := by
  intro ps
  unfold raw_compress_fdpage_list
  induction ps with
  | nil =>
    intro a b h
    rw [tilesFromZ_nil] at h
    exact Or.inl ⟨rfl, h⟩
  | cons p rest ih =>
    intro a b h
    rw [tilesFromZ_cons] at h
    obtain ⟨ho, hb0, hz'⟩ := h
    rw [rawCompressLoop]
    by_cases hzero : p.bytes = 0
    · rw [if_pos hzero]
      have hn : p.next = a := by
        show p.offset + p.bytes = a
        omega
      exact ih (hn ▸ hz')
    · rw [if_neg hzero]
      have hbpos : 0 < p.bytes := by omega
      simp only [List.getLast?_nil]
      rw [raw_add_pos hbpos]
      set p' : fdpage :=
        (⟨p.offset, p.bytes, (if il then dl else p.loaded),
          (if im then dm else p.modified)⟩ : fdpage) with hp'
      refine Or.inr ?_
      rw [← ho]
      have happ : ([] : List fdpage) ++ [p'] = [p'] := rfl
      refine rawCompressLoop_tiles_aux rest [p'] (by simp) ?_ ?_
      · rw [lastNext_singleton]
        rw [tilesFrom_cons]
        exact ⟨rfl, hbpos, tilesFrom_nil.2 rfl⟩
      · rw [lastNext_singleton]
        show tilesFromZ p.next rest b
        exact hz'

theorem splitChunksFuel_tiles {maxp : Int} (hm : 0 < maxp) (tmpl : fdpage) :
    ∀ (fuel : Nat) (start rest : Int), 0 ≤ rest → rest.toNat ≤ fuel →
      tilesFrom start (splitChunksFuel maxp tmpl fuel start rest) (start + rest) := by
  intro fuel
  induction fuel with
  | zero =>
    intro start rest h1 h2
    have : rest = 0 := by omega
    subst this
    rw [splitChunksFuel]
    rw [tilesFrom_nil]
    ring
  | succ f ih =>
    intro start rest h1 h2
    rw [splitChunksFuel]
    by_cases hr : 0 < rest
    · rw [if_pos hr]
      by_cases hs : maxp * 2 < rest ∧ 0 < maxp
      · rw [if_pos hs]
        rw [tilesFrom_cons]
        refine ⟨rfl, hm, ?_⟩
        show tilesFrom (start + maxp) (splitChunksFuel maxp tmpl f (start + maxp) (rest - maxp))
          (start + rest)
        have h3 : 0 ≤ rest - maxp := by omega
        have h4 : (rest - maxp).toNat ≤ f := by omega
        have h5 := ih (start + maxp) (rest - maxp) h3 h4
        have h6 : start + maxp + (rest - maxp) = start + rest := by ring
        rwa [h6] at h5
      · rw [if_neg hs]
        rw [tilesFrom_cons]
        exact ⟨rfl, hr, tilesFrom_nil.2 rfl⟩
    · rw [if_neg hr]
      have : rest = 0 := by omega
      subst this
      rw [tilesFrom_nil]
      ring

theorem splitChunks_tiles {maxp : Int} (hm : 0 < maxp) (tmpl : fdpage)
    {start rest : Int} (h : 0 ≤ rest) :
    tilesFrom start (splitChunks maxp tmpl start rest) (start + rest) :=
  splitChunksFuel_tiles hm tmpl rest.toNat start rest h le_rfl

theorem parse_partsize_tiles {maxp : Int} (hm : 0 < maxp) :
    ∀ {ps : List fdpage} {a b : Int}, tilesFrom a ps b →
      tilesFrom a (parse_partsize_fdpage_list ps maxp) b := by
  intro ps
  induction ps with
  | nil => intro a b h; exact h
  | cons p rest ih =>
    intro a b h
    rw [tilesFrom_cons] at h
    obtain ⟨ho, hb, ht⟩ := h
    unfold parse_partsize_fdpage_list
    rw [List.flatMap_cons]
    have hrest : tilesFrom p.next (parse_partsize_fdpage_list rest maxp) b := ih ht
    split
    · refine tilesFrom_append ?_ hrest
      have := @splitChunks_tiles maxp hm p p.offset p.bytes (le_of_lt hb)
      rw [ho] at this ⊢
      have h2 : a + p.bytes = p.next := by
        show a + p.bytes = p.offset + p.bytes
        omega
      rwa [h2] at this
    · rw [List.singleton_append]
      exact tilesFrom_cons.2 ⟨ho, hb, hrest⟩

theorem mpu_fold_inv {minSize : Int} (hmin : 0 < minSize) :
    ∀ (mp : List fdpage) (prev : fdpage) (dl mix : List fdpage) {b : Int},
      tilesFromZ prev.next mp b → tilesFromZ 0 mix prev.offset → 0 ≤ prev.bytes →
      tilesFromZ 0 (mp.foldl (mpuStep minSize) (prev, dl, mix)).2.2
          (mp.foldl (mpuStep minSize) (prev, dl, mix)).1.offset ∧
      (mp.foldl (mpuStep minSize) (prev, dl, mix)).1.next = b ∧
      0 ≤ (mp.foldl (mpuStep minSize) (prev, dl, mix)).1.bytes := by
  intro mp
  induction mp with
  | nil =>
    intro prev dl mix b h1 h2 h3
    rw [tilesFromZ_nil] at h1
    exact ⟨h2, h1, h3⟩
  | cons cur rest ih =>
    intro prev dl mix b h1 h2 h3
    rw [tilesFromZ_cons] at h1
    obtain ⟨hco, hcb, hz⟩ := h1
    rw [List.foldl_cons]
    have hpn : prev.next = prev.offset + prev.bytes := rfl
    have hcn : cur.next = cur.offset + cur.bytes := rfl
    have happly : ∀ (p1 : fdpage) (d1 m1 : List fdpage),
        mpuStep minSize (prev, dl, mix) cur = (p1, d1, m1) →
        tilesFromZ 0 m1 p1.offset → p1.next = cur.next → 0 ≤ p1.bytes →
        tilesFromZ 0 ((rest.foldl (mpuStep minSize) (mpuStep minSize (prev, dl, mix) cur)).2.2)
            ((rest.foldl (mpuStep minSize) (mpuStep minSize (prev, dl, mix) cur)).1.offset) ∧
        (rest.foldl (mpuStep minSize) (mpuStep minSize (prev, dl, mix) cur)).1.next = b ∧
        0 ≤ (rest.foldl (mpuStep minSize) (mpuStep minSize (prev, dl, mix) cur)).1.bytes := by
      intro p1 d1 m1 heq ha hb hcp
      rw [heq]
      exact ih p1 d1 m1 (hb ▸ hz) ha hcp
    cases hcm : cur.modified with
    | true =>
      cases hpm : prev.modified with
      | false =>
        by_cases hsz : prev.bytes < minSize
        · -- previous unmodified area too small: download it, emit as PUT
          have heq : mpuStep minSize (prev, dl, mix) cur =
              (cur, dl ++ [prev], mix ++ [{ prev with modified := true }]) := by
            simp [mpuStep, hcm, hpm, hsz]
          refine happly _ _ _ heq ?_ rfl hcb
          rw [hco]
          exact tilesFromZ_concat h2 h3
        · -- previous unmodified area is emitted as COPY
          have heq : mpuStep minSize (prev, dl, mix) cur =
              (cur, dl, mix ++ [{ prev with modified := false }]) := by
            simp [mpuStep, hcm, hpm, hsz]
          refine happly _ _ _ heq ?_ rfl hcb
          rw [hco]
          exact tilesFromZ_concat h2 h3
      | true =>
        -- both modified: accumulate
        have heq : mpuStep minSize (prev, dl, mix) cur =
            ({ prev with bytes := prev.bytes + cur.bytes }, dl, mix) := by
          simp [mpuStep, hcm, hpm]
        refine happly _ _ _ heq h2 ?_ (by show 0 ≤ prev.bytes + cur.bytes; omega)
        show prev.offset + (prev.bytes + cur.bytes) = cur.next
        omega
    | false =>
      cases hpm : prev.modified with
      | false =>
        -- both unmodified: accumulate
        have heq : mpuStep minSize (prev, dl, mix) cur =
            ({ prev with bytes := prev.bytes + cur.bytes }, dl, mix) := by
          simp [mpuStep, hcm, hpm]
        refine happly _ _ _ heq h2 ?_ (by show 0 ≤ prev.bytes + cur.bytes; omega)
        show prev.offset + (prev.bytes + cur.bytes) = cur.next
        omega
      | true =>
        by_cases hsz : prev.bytes < minSize
        · by_cases hmiss : (minSize - prev.bytes) + minSize < cur.bytes
          · -- pad prev to MIN from current's front, carry the remainder
            have heq : mpuStep minSize (prev, dl, mix) cur =
                ((⟨cur.offset + (minSize - prev.bytes), cur.bytes - (minSize - prev.bytes),
                    cur.loaded, cur.modified⟩ : fdpage),
                 dl ++ [⟨cur.offset, minSize - prev.bytes, false, false⟩],
                 mix ++ [{ prev with bytes := minSize }]) := by
              simp [mpuStep, hcm, hpm, hsz, hmiss]
            refine happly _ _ _ heq ?_ ?_ ?_
            · have hc1 : tilesFromZ 0 (mix ++ [{ prev with bytes := minSize }])
                  (prev.offset + minSize) :=
                tilesFromZ_concat h2 (by show (0:Int) ≤ minSize; omega)
              have hc2 : cur.offset + (minSize - prev.bytes) = prev.offset + minSize := by
                omega
              show tilesFromZ 0 (mix ++ [{ prev with bytes := minSize }])
                (cur.offset + (minSize - prev.bytes))
              rwa [hc2]
            · show cur.offset + (minSize - prev.bytes) + (cur.bytes - (minSize - prev.bytes)) =
                cur.next
              omega
            · show (0 : Int) ≤ cur.bytes - (minSize - prev.bytes)
              omega
          · -- download the whole of current and absorb it
            have heq : mpuStep minSize (prev, dl, mix) cur =
                ({ prev with bytes := prev.bytes + cur.bytes }, dl ++ [cur], mix) := by
              simp [mpuStep, hcm, hpm, hsz, hmiss]
            refine happly _ _ _ heq h2 ?_ (by show 0 ≤ prev.bytes + cur.bytes; omega)
            show prev.offset + (prev.bytes + cur.bytes) = cur.next
            omega
        · -- previous modified area is emitted as PUT
          have heq : mpuStep minSize (prev, dl, mix) cur = (cur, dl, mix ++ [prev]) := by
            simp [mpuStep, hcm, hpm, hsz]
          refine happly _ _ _ heq ?_ rfl hcb
          rw [hco]
          exact tilesFromZ_concat h2 h3

theorem WFpages_tilesFromZ {ps : List fdpage} (h : WFpages ps) :
    tilesFromZ 0 ps (lastNext ps) := by
  rcases h with h | ⟨l, m, h⟩ | h
  · subst h
    exact tilesFromZ_nil.2 rfl
  · subst h
    rw [tilesFromZ_cons]
    refine ⟨rfl, le_refl 0, ?_⟩
    rw [tilesFromZ_nil, lastNext_singleton]
  · exact tilesFrom_weaken h

/-- C2: for every well-formed page list and every MIN > 0 and MAX >= 2*MIN,
the mixuppages list produced by GetPageListsForMultipartUpload is, in
order, a gap-free, non-overlapping partition of `[0, Size())` (expressed by
`tilesFrom 0 _ Size`: consecutive pages abut exactly and tile the whole
interval). -/
theorem C2_mixup_partition (pl : PageList) (hw : pl.WF) (minSize maxp : Int)
    (hmin : 0 < minSize) (hmax : 2 * minSize ≤ maxp) :
    tilesFrom 0 (pl.GetPageListsForMultipartUpload minSize maxp).2 pl.Size := by
  have hmp : 0 < maxp := by omega
  obtain ⟨hwf1, hsz1, -, -⟩ := Compress_spec hw
  unfold PageList.GetPageListsForMultipartUpload
  simp only
  have hzc : tilesFromZ 0 pl.Compress.pages (lastNext pl.Compress.pages) :=
    WFpages_tilesFromZ hwf1
  have hS : lastNext pl.Compress.pages = pl.Size := hsz1
  rw [hS] at hzc
  have hmod : tilesFromZ 0 (compress_fdpage_list_ignore_load pl.Compress.pages false)
      pl.Size := by
    unfold compress_fdpage_list_ignore_load
    rcases raw_compress_tiles hzc with ⟨he, hab⟩ | ht
    · rw [he]
      exact tilesFromZ_nil.2 hab
    · exact tilesFrom_weaken ht
  have hdn : (default : fdpage).next = 0 := rfl
  have hdo : (default : fdpage).offset = 0 := rfl
  have hdb : (default : fdpage).bytes = 0 := rfl
  have hinv := mpu_fold_inv hmin (compress_fdpage_list_ignore_load pl.Compress.pages false)
    default [] [] (hdn ▸ hmod) (by rw [hdo]; exact tilesFromZ_nil.2 rfl) (by rw [hdb])
  set st := (compress_fdpage_list_ignore_load pl.Compress.pages false).foldl
    (mpuStep minSize) (default, [], []) with hst
  obtain ⟨hi1, hi2, hi3⟩ := hinv
  have hmix : tilesFromZ 0 (if 0 < st.1.bytes then st.2.2 ++ [st.1] else st.2.2) pl.Size := by
    split
    · rw [← hi2]
      exact tilesFromZ_concat hi1 hi3
    · have hb0 : st.1.bytes = 0 := by omega
      have : st.1.offset = pl.Size := by
        have hn : st.1.next = st.1.offset + st.1.bytes := rfl
        omega
      rw [← this]
      exact hi1
  rcases @raw_compress_tiles true false false false _ _ _ hmix with
    ⟨he, hab⟩ | ht
  · show tilesFrom 0 (parse_partsize_fdpage_list
      (compress_fdpage_list_ignore_load (if 0 < st.1.bytes then st.2.2 ++ [st.1] else st.2.2)
        false) maxp) pl.Size
    unfold compress_fdpage_list_ignore_load
    rw [he]
    show tilesFrom 0 ([] : List fdpage) pl.Size
    rw [tilesFrom_nil]
    exact hab
  · show tilesFrom 0 (parse_partsize_fdpage_list
      (compress_fdpage_list_ignore_load (if 0 < st.1.bytes then st.2.2 ++ [st.1] else st.2.2)
        false) maxp) pl.Size
    exact parse_partsize_tiles hmp ht

/-- Witness for C2 at a concrete input. -/
theorem C2_mixup_partition_witness :
    (PageList.mk [⟨0, 3, true, false⟩, ⟨3, 4, false, true⟩] false).WF ∧
    tilesFrom 0
      (((PageList.mk [⟨0, 3, true, false⟩, ⟨3, 4, false, true⟩] false).GetPageListsForMultipartUpload
        1 2).2)
      (PageList.mk [⟨0, 3, true, false⟩, ⟨3, 4, false, true⟩] false).Size :=
  ⟨by decide, C2_mixup_partition _ (by decide) 1 2 (by decide) (by decide)⟩

theorem Size_nonneg {pl : PageList} (hw : pl.WF) : 0 ≤ pl.Size := by
  rcases hw with h | ⟨l, m, h⟩ | h
  · show 0 ≤ lastNext pl.pages
    rw [h, lastNext_nil]
  · show 0 ≤ lastNext pl.pages
    rw [h, lastNext_singleton]
    show (0 : Int) ≤ 0 + 0
    omega
  · exact tilesFrom_le h

theorem flagsAt_append (xs ys : List fdpage) (x : Int) :
    flagsAt (xs ++ ys) x = (flagsAt xs x).or (flagsAt ys x) := by
  unfold flagsAt
  rw [List.find?_append]
  cases xs.find? fun p => decide (p.offset ≤ x) && decide (x < p.next) <;> simp

theorem flagsAt_none_of_forall {ps : List fdpage} {x : Int}
    (h : ∀ p ∈ ps, ¬(p.offset ≤ x ∧ x < p.next)) : flagsAt ps x = none := by
  unfold flagsAt
  rw [List.find?_eq_none.2]
  · rfl
  · intro p hp
    simp only [Bool.and_eq_true, decide_eq_true_eq]
    exact h p hp

theorem flagsAt_none_outside {ps : List fdpage} {a b x : Int}
    (ht : tilesFrom a ps b) (h : x < a ∨ b ≤ x) : flagsAt ps x = none := by
  refine flagsAt_none_of_forall ?_
  intro p hp
  have hb := tilesFrom_mem_bounds ht hp
  intro hc
  rcases h with h | h <;> omega

theorem flagsAt_zero_size {pl : PageList} (hw : pl.WF) (hs : pl.Size = 0) (x : Int) :
    flagsAt pl.pages x = none := by
  rcases hw with h | ⟨l, m, h⟩ | h
  · rw [h]; rfl
  · rw [h]
    refine flagsAt_none_of_forall ?_
    intro p hp
    simp only [List.mem_singleton] at hp
    subst hp
    show ¬((0 : Int) ≤ x ∧ x < (0 : Int) + 0)
    omega
  · rw [show lastNext pl.pages = pl.Size from rfl, hs] at h
    cases hps : pl.pages with
    | nil => rfl
    | cons p rest =>
      exfalso
      rw [hps, tilesFrom_cons] at h
      have h2 := tilesFrom_le h.2.2
      have h3 : p.next = p.offset + p.bytes := rfl
      omega

theorem Size_eq_zero_pages {pl : PageList} (hw : pl.WF) (hs : 0 < pl.Size) :
    tilesFrom 0 pl.pages pl.Size := by
  rcases hw with h | ⟨l, m, h⟩ | h
  · exfalso
    have : pl.Size = 0 := by show lastNext pl.pages = 0; rw [h, lastNext_nil]
    omega
  · exfalso
    have : pl.Size = 0 := by
      show lastNext pl.pages = 0
      rw [h, lastNext_singleton]
      show (0 : Int) + 0 = 0
      ring
    omega
  · exact h

theorem Resize_grow_flags {pl : PageList} (hw : pl.WF) {sz : Int} (l m : Bool)
    (hgrow : pl.Size < sz) :
    (∀ x, pl.Size ≤ x → x < sz → flagsAt (pl.Resize sz l m).pages x = some (l, m)) ∧
    (∀ x, x < pl.Size → flagsAt (pl.Resize sz l m).pages x = flagsAt pl.pages x) ∧
    (pl.Resize sz l m).Size = sz := by
  have hs0 := Size_nonneg hw
  unfold PageList.Resize
  simp only
  by_cases h0 : pl.Size = 0
  · rw [if_pos h0]
    have hinit : PageList.Init sz l m = ⟨[⟨0, sz, l, m⟩], false⟩ := by
      unfold PageList.Init
      rw [if_pos (by omega)]
    rw [hinit]
    have hcp : ({ pages := [⟨0, sz, l, m⟩], is_shrink := pl.is_shrink } : PageList).Compress =
        ⟨[⟨0, sz, l, m⟩], pl.is_shrink⟩ := rfl
    show _ ∧ _ ∧ (PageList.Compress _).Size = sz
    rw [hcp]
    refine ⟨?_, ?_, ?_⟩
    · intro x hx1 hx2
      rw [flagsAt_cons, if_pos]
      constructor
      · show (0 : Int) ≤ x
        omega
      · show x < (0 : Int) + sz
        omega
    · intro x hx
      rw [flagsAt_zero_size hw h0 x, flagsAt_cons, if_neg]
      · rfl
      · intro hc
        have := hc.1
        have : (0 : Int) ≤ x := this
        omega
    · show lastNext [⟨0, sz, l, m⟩] = sz
      rw [lastNext_singleton]
      show (0 : Int) + sz = sz
      ring
  · rw [if_neg h0, if_pos hgrow]
    have ht : tilesFrom 0 pl.pages pl.Size := Size_eq_zero_pages hw (by omega)
    set new : fdpage := ⟨pl.Size, sz - pl.Size, l, m⟩ with hnew
    have hnn : new.next = sz := by
      show pl.Size + (sz - pl.Size) = sz
      ring
    have htg : tilesFrom 0 (pl.pages ++ [new]) sz := by
      rw [← hnn]
      exact tilesFrom_concat ht (by show 0 < sz - pl.Size; omega)
    have hwg : ({ pl with pages := pl.pages ++ [new] } : PageList).WF :=
      tilesFrom_WFpages htg
    obtain ⟨hc1, hc2, hc3, -⟩ :=
      @Compress_spec { pl with pages := pl.pages ++ [new] } hwg
    refine ⟨?_, ?_, ?_⟩
    · intro x hx1 hx2
      rw [hc3 x]
      show flagsAt (pl.pages ++ [new]) x = some (l, m)
      rw [flagsAt_append]
      rw [flagsAt_none_outside ht (Or.inr hx1), Option.none_or]
      have hcnd : new.offset ≤ x ∧ x < new.next := by
        refine ⟨hx1, ?_⟩
        show x < pl.Size + (sz - pl.Size)
        omega
      rw [flagsAt_cons, if_pos hcnd]
    · intro x hx
      rw [hc3 x]
      show flagsAt (pl.pages ++ [new]) x = flagsAt pl.pages x
      rw [flagsAt_append]
      have hcnd : ¬(new.offset ≤ x ∧ x < new.next) := by
        intro hc
        have h5 : pl.Size ≤ x := hc.1
        omega
      rw [flagsAt_cons, if_neg hcnd]
      show (flagsAt pl.pages x).or (flagsAt [] x) = flagsAt pl.pages x
      cases flagsAt pl.pages x <;> rfl
    · rw [hc2]
      show lastNext (pl.pages ++ [new]) = sz
      rw [lastNext_concat, hnn]

theorem Resize_noop_flags {pl : PageList} (hw : pl.WF) (l m : Bool) (hpos : 0 < pl.Size) :
    (∀ x, flagsAt (pl.Resize pl.Size l m).pages x = flagsAt pl.pages x) ∧
    (pl.Resize pl.Size l m).Size = pl.Size := by
  unfold PageList.Resize
  simp only
  rw [if_neg (by omega), if_neg (by omega), if_neg (by omega)]
  obtain ⟨-, hc2, hc3, -⟩ := Compress_spec hw
  exact ⟨hc3, hc2⟩

/-- The loaded flag requested by a `page_status`
(`LOAD_MODIFIED == pstatus || LOADED == pstatus`). -/
def status_is_loaded : page_status → Bool
  | .LOAD_MODIFIED => true
  | .LOADED => true
  | _ => false

/-- The modified flag requested by a `page_status`
(`LOAD_MODIFIED == pstatus || MODIFIED == pstatus`). -/
def status_is_modified : page_status → Bool
  | .LOAD_MODIFIED => true
  | .MODIFIED => true
  | _ => false

theorem status_is_loaded_eq (st : page_status) :
    (st == page_status.LOAD_MODIFIED || st == page_status.LOADED) = status_is_loaded st := by
  cases st <;> rfl

theorem status_is_modified_eq (st : page_status) :
    (st == page_status.LOAD_MODIFIED || st == page_status.MODIFIED) = status_is_modified st := by
  cases st <;> rfl

/-- C5 counterexample: expanding an empty list (`Size = 0`) with
`SetPageLoadedStatus(5, 5, MODIFIED)` marks the prefix `[0,5)` with flags
`(false, true)` — `Resize(start, false, is_modified)` passes the requested
modified flag to the filler prefix (fdcache_page.cpp:512) — whereas the
claim demands `(false, false)` there. -/
theorem C5_prefix_counterexample :
    (PageList.Init 0 false false).Size < 5 ∧
    flagsAt ((PageList.Init 0 false false).SetPageLoadedStatus 5 5
      page_status.MODIFIED true).pages 2 = some (false, true) ∧
    (some (false, true) : Option (Bool × Bool)) ≠ some (false, false) := by
  decide

/-- C5 (amended): for every well-formed page list of size S, every call
`SetPageLoadedStatus(start, length, status)` with S < start and length >= 0
expands the list so that the prefix region [S, start) receives flags
`(false, m)` — where m is the modified flag requested by `status`, not
always false — and the region [start, start+length) receives the
loaded/modified flags requested by `status`. -/
theorem C5_expand_region (pl : PageList) (hw : pl.WF) (start size : Int)
    (st : page_status) (hgt : pl.Size < start) (hsz : 0 ≤ size) :
    (∀ x, pl.Size ≤ x → x < start →
      flagsAt ((pl.SetPageLoadedStatus start size st true).pages) x =
        some (false, status_is_modified st)) ∧
    (∀ x, start ≤ x → x < start + size →
      flagsAt ((pl.SetPageLoadedStatus start size st true).pages) x =
        some (status_is_loaded st, status_is_modified st)) := by
  have hs0 := Size_nonneg hw
  unfold PageList.SetPageLoadedStatus
  simp only [status_is_loaded_eq, status_is_modified_eq]
  rw [if_pos (le_of_lt hgt), if_pos hgt]
  set m := status_is_modified st with hm
  set l := status_is_loaded st with hl
  obtain ⟨hg1, hg2, hg3⟩ := @Resize_grow_flags pl hw start false m hgt
  set pl1 := pl.Resize start false m with hpl1
  have hwf1 : pl1.WF := Resize_WF hw start false m
  rcases lt_or_eq_of_le hsz with hszpos | hszzero
  · -- a non-empty new region is appended
    obtain ⟨hh1, hh2, hh3⟩ := @Resize_grow_flags pl1 hwf1 (start + size) l m
      (by rw [hg3]; omega)
    set pl2 := pl1.Resize (start + size) l m with hpl2
    have hwf2 : pl2.WF := Resize_WF hwf1 (start + size) l m
    obtain ⟨-, -, hcf, -⟩ := Compress_spec hwf2
    rw [if_pos trivial]
    constructor
    · intro x hx1 hx2
      rw [hcf x, hh2 x (by rw [hg3]; omega), hg1 x hx1 hx2]
    · intro x hx1 hx2
      rw [hcf x, hh1 x (by rw [hg3]; omega) hx2]
  · -- length = 0: the second Resize is a no-op
    subst hszzero
    have hP : start + 0 = pl1.Size := by rw [hg3]; ring
    rw [hP]
    obtain ⟨hn1, -⟩ := Resize_noop_flags hwf1 l m (by rw [hg3]; omega)
    set pl2 := pl1.Resize pl1.Size l m with hpl2
    have hwf2 : pl2.WF := Resize_WF hwf1 pl1.Size l m
    obtain ⟨-, -, hcf, -⟩ := Compress_spec hwf2
    rw [if_pos trivial]
    constructor
    · intro x hx1 hx2
      rw [hcf x, hn1 x, hg1 x hx1 hx2]
    · intro x hx1 hx2
      rw [hg3] at hx2
      omega

/-- Witness for the amended C5 at a concrete input. -/
theorem C5_expand_region_witness :
    flagsAt ((PageList.Init 0 false false).SetPageLoadedStatus 5 5
      page_status.MODIFIED true).pages 2 = some (false, status_is_modified .MODIFIED) ∧
    flagsAt ((PageList.Init 0 false false).SetPageLoadedStatus 5 5
      page_status.MODIFIED true).pages 7 =
      some (status_is_loaded .MODIFIED, status_is_modified .MODIFIED) := by
  have h := C5_expand_region (PageList.Init 0 false false) (Init_WF 0 false false)
    5 5 page_status.MODIFIED (by decide) (by decide)
  exact ⟨h.1 2 (by decide) (by decide), h.2 7 (by decide) (by decide)⟩

theorem err_push_shift {X : Bool × List fdpage × List fdpage} {err warn : List fdpage}
    {res : Bool} {pg : fdpage}
    (h : ∃ e w, X = (false && e.isEmpty && w.isEmpty, (err ++ [pg]) ++ e, warn ++ w)) :
    ∃ e w, X = (res && e.isEmpty && w.isEmpty, err ++ e, warn ++ w) := by
  obtain ⟨e, w, hx⟩ := h
  refine ⟨pg :: e, w, ?_⟩
  rw [hx]
  simp

theorem warn_push_shift {X : Bool × List fdpage × List fdpage} {err warn : List fdpage}
    {res : Bool} {pg : fdpage}
    (h : ∃ e w, X = (false && e.isEmpty && w.isEmpty, err ++ e, (warn ++ [pg]) ++ w)) :
    ∃ e w, X = (res && e.isEmpty && w.isEmpty, err ++ e, warn ++ w) := by
  obtain ⟨e, w, hx⟩ := h
  refine ⟨e, pg :: w, ?_⟩
  rw [hx]
  simp

theorem checkAreaLoop_spec (cp : fdpage) (cz : Int → Int → Bool) :
    ∀ (sl : List fdpage) (res : Bool) (err warn : List fdpage),
    ∃ e w, checkAreaLoop cp cz sl res err warn =
      (res && e.isEmpty && w.isEmpty, err ++ e, warn ++ w) := by
  intro sl
  induction sl with
  | nil =>
    intro res err warn
    exact ⟨[], [], by simp [checkAreaLoop]⟩
  | cons s rest ih =>
    intro res err warn
    rw [checkAreaLoop]
    split
    · exact ih res err warn
    · split
      · exact ⟨[], [], by simp⟩
      · simp only
        split
        · split
          · exact err_push_shift (ih false _ warn)
          · exact ih res err warn
        · split
          · split
            · exact warn_push_shift (ih false err _)
            · exact ih res err warn
          · exact ih res err warn

theorem compare_fold_spec (cz : Int → Int → Bool) (sl : List fdpage) :
    ∀ (pages : List fdpage) (acc : Bool × List fdpage × List fdpage),
    ∃ e w, pages.foldl
        (fun acc p =>
          let r := checkAreaLoop p cz sl true acc.2.1 acc.2.2
          (acc.1 && r.1, r.2.1, r.2.2)) acc =
      (acc.1 && e.isEmpty && w.isEmpty, acc.2.1 ++ e, acc.2.2 ++ w) := by
  intro pages
  induction pages with
  | nil =>
    intro acc
    exact ⟨[], [], by simp⟩
  | cons p rest ih =>
    intro acc
    rw [List.foldl_cons]
    obtain ⟨e1, w1, h1⟩ := checkAreaLoop_spec p cz sl true acc.2.1 acc.2.2
    obtain ⟨e2, w2, h2⟩ := ih (acc.1 && (checkAreaLoop p cz sl true acc.2.1 acc.2.2).1,
      (checkAreaLoop p cz sl true acc.2.1 acc.2.2).2.1,
      (checkAreaLoop p cz sl true acc.2.1 acc.2.2).2.2)
    refine ⟨e1 ++ e2, w1 ++ w2, ?_⟩
    simp only at h2
    rw [h2, h1]
    have hie : ∀ (l1 l2 : List fdpage), (l1 ++ l2).isEmpty = (l1.isEmpty && l2.isEmpty) := by
      intro l1 l2
      cases l1 <;> cases l2 <;> rfl
    simp only [List.append_assoc, hie]
    refine Prod.ext ?_ rfl
    show (acc.1 && (true && e1.isEmpty && w1.isEmpty) && e2.isEmpty && w2.isEmpty) =
      (acc.1 && (e1.isEmpty && e2.isEmpty) && (w1.isEmpty && w2.isEmpty))
    cases acc.1 <;> cases e1.isEmpty <;> cases w1.isEmpty <;>
      cases e2.isEmpty <;> cases w2.isEmpty <;> rfl

theorem checkRegion_contains {cp s : fdpage}
    (h0 : ¬(s.offset + s.bytes ≤ cp.offset)) (h1 : ¬(cp.offset + cp.bytes ≤ s.offset)) :
    (checkRegion cp s).1 ≤ max cp.offset s.offset ∧
    min (cp.offset + cp.bytes) (s.offset + s.bytes) ≤
      (checkRegion cp s).1 + (checkRegion cp s).2 := by
  have hx : cp.offset ≤ max cp.offset s.offset := le_max_left _ _
  have hy : s.offset ≤ max cp.offset s.offset := le_max_right _ _
  have hm1 : min (cp.offset + cp.bytes) (s.offset + s.bytes) ≤ cp.offset + cp.bytes :=
    min_le_left _ _
  have hm2 : min (cp.offset + cp.bytes) (s.offset + s.bytes) ≤ s.offset + s.bytes :=
    min_le_right _ _
  unfold checkRegion
  by_cases c2 : s.offset < cp.offset ∧ s.offset + s.bytes < cp.offset + cp.bytes
  · rw [if_pos c2]
    constructor
    · exact hx
    · show min (cp.offset + cp.bytes) (s.offset + s.bytes) ≤
        cp.offset + (s.bytes - (cp.offset - s.offset))
      omega
  · rw [if_neg c2]
    by_cases c3 : cp.offset + cp.bytes < s.offset + s.bytes
    · rw [if_pos c3]
      constructor
      · exact hy
      · show min (cp.offset + cp.bytes) (s.offset + s.bytes) ≤
          s.offset + (cp.bytes - (s.offset - cp.offset))
        omega
    · rw [if_neg c3]
      by_cases c4 : cp.offset < s.offset ∧ s.offset + s.bytes < cp.offset + cp.bytes
      · rw [if_pos c4]
        exact ⟨hy, by omega⟩
      · rw [if_neg c4]
        exact ⟨hx, by omega⟩

theorem checkAreaLoop_err_contains (cp : fdpage) (cz : Int → Int → Bool)
    (hcp : (cp.loaded || cp.modified) = true) :
    ∀ (sl : List fdpage) {a b : Int}, tilesFrom a sl b →
    ∀ (res : Bool) (err warn : List fdpage) (s : fdpage), s ∈ sl → s.loaded = false →
    max cp.offset s.offset < min (cp.offset + cp.bytes) (s.offset + s.bytes) →
    ∃ e ∈ (checkAreaLoop cp cz sl res err warn).2.1,
      e.offset ≤ max cp.offset s.offset ∧
      min (cp.offset + cp.bytes) (s.offset + s.bytes) ≤ e.offset + e.bytes := by
  intro sl
  induction sl with
  | nil => intro a b _ res err warn s hs; simp at hs
  | cons s0 rest ih =>
    intro a b ht res err warn s hs hsl hover
    rw [tilesFrom_cons] at ht
    obtain ⟨ho, hb, ht'⟩ := ht
    have hx : cp.offset ≤ max cp.offset s.offset := le_max_left _ _
    have hy : s.offset ≤ max cp.offset s.offset := le_max_right _ _
    have hm1 : min (cp.offset + cp.bytes) (s.offset + s.bytes) ≤ cp.offset + cp.bytes :=
      min_le_left _ _
    have hm2 : min (cp.offset + cp.bytes) (s.offset + s.bytes) ≤ s.offset + s.bytes :=
      min_le_right _ _
    rw [checkAreaLoop]
    by_cases h0 : s0.offset + s0.bytes ≤ cp.offset
    · rw [if_pos h0]
      rcases List.mem_cons.1 hs with heq | hmem
      · subst heq
        omega
      · exact ih ht' res err warn s hmem hsl hover
    · rw [if_neg h0]
      by_cases h1 : cp.offset + cp.bytes ≤ s0.offset
      · rw [if_pos h1]
        exfalso
        rcases List.mem_cons.1 hs with heq | hmem
        · subst heq
          omega
        · have hbd := (tilesFrom_mem_bounds ht' hmem).1
          have h5 : s0.next = s0.offset + s0.bytes := rfl
          omega
      · rw [if_neg h1]
        simp only
        rw [if_pos hcp]
        by_cases hs0 : (!s0.loaded) = true
        · rw [if_pos hs0]
          rcases List.mem_cons.1 hs with heq | hmem
          · subst heq
            obtain ⟨e', w', hew⟩ := checkAreaLoop_spec cp cz rest false
              (err ++ [⟨(checkRegion cp s).1, (checkRegion cp s).2, false, false⟩]) warn
            rw [hew]
            refine ⟨⟨(checkRegion cp s).1, (checkRegion cp s).2, false, false⟩, ?_, ?_⟩
            · simp
            · exact checkRegion_contains h0 h1
          · exact ih ht' false _ warn s hmem hsl hover
        · rw [if_neg hs0]
          rcases List.mem_cons.1 hs with heq | hmem
          · subst heq
            rw [Bool.not_eq_true', Bool.not_eq_false] at hs0
            rw [hs0] at hsl
            cases hsl
          · exact ih ht' res err warn s hmem hsl hover

theorem compare_err_contains (cz : Int → Int → Bool) {sl : List fdpage} {a b : Int}
    (htiles : tilesFrom a sl b) :
    ∀ (pages : List fdpage) (acc : Bool × List fdpage × List fdpage) (p : fdpage),
    p ∈ pages → (p.loaded || p.modified) = true →
    ∀ s ∈ sl, s.loaded = false →
    max p.offset s.offset < min (p.offset + p.bytes) (s.offset + s.bytes) →
    ∃ e ∈ (pages.foldl
        (fun acc q =>
          let r := checkAreaLoop q cz sl true acc.2.1 acc.2.2
          (acc.1 && r.1, r.2.1, r.2.2)) acc).2.1,
      e.offset ≤ max p.offset s.offset ∧
      min (p.offset + p.bytes) (s.offset + s.bytes) ≤ e.offset + e.bytes := by
  intro pages
  induction pages with
  | nil => intro acc p hp; simp at hp
  | cons q rest ih =>
    intro acc p hp hflags s hssl hsl hover
    rw [List.foldl_cons]
    rcases List.mem_cons.1 hp with heq | hmem
    · subst heq
      obtain ⟨e, hmem2, hcont⟩ := checkAreaLoop_err_contains p cz hflags sl htiles
        true acc.2.1 acc.2.2 s hssl hsl hover
      obtain ⟨e2, w2, h2⟩ := compare_fold_spec cz sl rest
        (acc.1 && (checkAreaLoop p cz sl true acc.2.1 acc.2.2).1,
         (checkAreaLoop p cz sl true acc.2.1 acc.2.2).2.1,
         (checkAreaLoop p cz sl true acc.2.1 acc.2.2).2.2)
      simp only at h2
      rw [h2]
      exact ⟨e, List.mem_append_left _ hmem2, hcont⟩
    · exact ih _ p hmem hflags s hssl hsl hover

/-- C9 counterexample: the region appended to `err_area_list` is not always
the intersection of the stored page with the hole segment.  With stored
pages `[(0,4096,ff),(4096,4096,loaded),(8192,8192,ff)]` over a single
16384-byte hole, overlap case 3 fires for the loaded page and the appended
error page is `(0, 8192)`, not the intersection `(4096, 4096)` — which is
absent from the list. -/
theorem C9_intersection_counterexample :
    (PageList.mk [⟨0, 4096, false, false⟩, ⟨4096, 4096, true, false⟩,
        ⟨8192, 8192, false, false⟩] false).CompareSparseFile 16384
        (some [⟨0, 16384, false, false⟩]) (fun _ _ => true) =
      (false, [⟨0, 8192, false, false⟩], []) ∧
    fdpage.mk 4096 4096 false false ∉
      ((PageList.mk [⟨0, 4096, false, false⟩, ⟨4096, 4096, true, false⟩,
        ⟨8192, 8192, false, false⟩] false).CompareSparseFile 16384
        (some [⟨0, 16384, false, false⟩]) (fun _ _ => true)).2.1 := by
  decide

/-- C9 (amended): `CompareSparseFile` (with the `lseek`-based sparse probe
abstracted as `probe` and the zero-check as `cz`) returns false if and only
if `err_area_list` or `warn_area_list` is non-empty after the call; when
the probe itself fails it returns false with `err_area_list` holding the
single covering page `(0, file_size, false, false)`; and for each stored
page with loaded or modified set and each overlapping hole segment of the
probe list, a region **containing** their intersection (not necessarily the
intersection itself) is appended to `err_area_list`. -/
theorem C9_compare_sparse (pl : PageList) (file_size : Int) (cz : Int → Int → Bool) :
    (pl.CompareSparseFile file_size none cz =
      (false, [⟨0, file_size, false, false⟩], [])) ∧
    (∀ probe : Option (List fdpage),
      ((pl.CompareSparseFile file_size probe cz).1 = false ↔
        ((pl.CompareSparseFile file_size probe cz).2.1 ≠ [] ∨
         (pl.CompareSparseFile file_size probe cz).2.2 ≠ []))) ∧
    (∀ (sl : List fdpage), tilesFrom 0 sl file_size →
      ∀ p ∈ pl.pages, (p.loaded || p.modified) = true →
      ∀ s ∈ sl, s.loaded = false →
      max p.offset s.offset < min (p.offset + p.bytes) (s.offset + s.bytes) →
      ∃ e ∈ (pl.CompareSparseFile file_size (some sl) cz).2.1,
        e.offset ≤ max p.offset s.offset ∧
        min (p.offset + p.bytes) (s.offset + s.bytes) ≤ e.offset + e.bytes) := by
  refine ⟨rfl, ?_, ?_⟩
  · intro probe
    cases probe with
    | none =>
      constructor
      · intro _
        left
        simp [PageList.CompareSparseFile]
      · intro _
        rfl
    | some sl =>
      rw [show pl.CompareSparseFile file_size (some sl) cz =
            (if sl = [] ∧ pl.pages = [] then (true, [], [])
             else pl.pages.foldl (fun acc p =>
               let r := checkAreaLoop p cz sl true acc.2.1 acc.2.2
               (acc.1 && r.1, r.2.1, r.2.2)) (true, ([] : List fdpage), ([] : List fdpage)))
          from rfl]
      by_cases hc : sl = [] ∧ pl.pages = []
      · rw [if_pos hc]
        simp
      · rw [if_neg hc]
        obtain ⟨e, w, hew⟩ := compare_fold_spec cz sl pl.pages (true, [], [])
        simp only at hew
        rw [hew]
        simp only [List.nil_append, Bool.true_and]
        cases e <;> cases w <;> simp
  · intro sl htiles p hp hflags s hssl hsl hover
    rw [show pl.CompareSparseFile file_size (some sl) cz =
          (if sl = [] ∧ pl.pages = [] then (true, [], [])
           else pl.pages.foldl (fun acc p =>
             let r := checkAreaLoop p cz sl true acc.2.1 acc.2.2
             (acc.1 && r.1, r.2.1, r.2.2)) (true, ([] : List fdpage), ([] : List fdpage)))
        from rfl]
    by_cases hc : sl = [] ∧ pl.pages = []
    · rw [hc.2] at hp
      simp at hp
    · rw [if_neg hc]
      exact compare_err_contains cz htiles pl.pages (true, [], []) p hp hflags s hssl hsl hover

/-- Witness for the amended C9: on the concrete input of the
counterexample, the error page `(0, 8192)` does contain the intersection
`[4096, 8192)` of the loaded page with the hole. -/
theorem C9_compare_sparse_witness :
    ∃ e ∈ ((PageList.mk [⟨0, 4096, false, false⟩, ⟨4096, 4096, true, false⟩,
        ⟨8192, 8192, false, false⟩] false).CompareSparseFile 16384
        (some [⟨0, 16384, false, false⟩]) (fun _ _ => true)).2.1,
      e.offset ≤ max (4096 : Int) 0 ∧
      min ((4096 : Int) + 4096) ((0 : Int) + 16384) ≤ e.offset + e.bytes := by
  have h := (C9_compare_sparse (PageList.mk [⟨0, 4096, false, false⟩,
      ⟨4096, 4096, true, false⟩, ⟨8192, 8192, false, false⟩] false) 16384
      (fun _ _ => true)).2.2 [⟨0, 16384, false, false⟩] (by decide)
      ⟨4096, 4096, true, false⟩ (by decide) rfl ⟨0, 16384, false, false⟩
      (by decide) rfl (by decide)
  exact h

theorem charDigit_digitChar {d : Nat} (h : d < 10) : charDigit (digitChar d) = d := by
  interval_cases d <;> rfl

theorem digitChar_isDigit {d : Nat} (h : d < 10) : (digitChar d).isDigit = true := by
  interval_cases d <;> decide

theorem digitChar_ne {d : Nat} (h : d < 10) :
    digitChar d ≠ '-' ∧ digitChar d ≠ ':' ∧ digitChar d ≠ '\n' := by
  interval_cases d <;> refine ⟨by decide, by decide, by decide⟩

/-- Value of a little-endian digit list. -/
def ofDigitsRev : List Nat → Nat
  | [] => 0
  | d :: ds => d + 10 * ofDigitsRev ds

theorem natDigitsRevFuel_spec : ∀ (fuel n : Nat), n ≤ fuel →
    ofDigitsRev (natDigitsRevFuel fuel n) = n := by
  intro fuel
  induction fuel with
  | zero =>
    intro n hn
    have : n = 0 := by omega
    subst this
    rfl
  | succ f ih =>
    intro n hn
    rw [natDigitsRevFuel]
    by_cases h0 : n = 0
    · rw [if_pos h0, h0]
      rfl
    · rw [if_neg h0]
      show n % 10 + 10 * ofDigitsRev (natDigitsRevFuel f (n / 10)) = n
      have h1 : n / 10 ≤ f := by omega
      rw [ih (n / 10) h1]
      omega

theorem natDigitsRevFuel_lt : ∀ (fuel n : Nat), ∀ d ∈ natDigitsRevFuel fuel n, d < 10 := by
  intro fuel
  induction fuel with
  | zero => intro n d hd; simp [natDigitsRevFuel] at hd
  | succ f ih =>
    intro n d hd
    rw [natDigitsRevFuel] at hd
    split at hd
    · simp at hd
    · rcases List.mem_cons.1 hd with h | h
      · subst h
        omega
      · exact ih (n / 10) d h

theorem natDigitsRevFuel_ne_nil {n : Nat} (h : n ≠ 0) : ∀ fuel, n ≤ fuel →
    natDigitsRevFuel fuel n ≠ [] := by
  intro fuel hf
  cases fuel with
  | zero => omega
  | succ f =>
    rw [natDigitsRevFuel, if_neg h]
    simp

theorem foldl_digits (ds : List Nat) : ∀ (acc : Nat), (∀ d ∈ ds, d < 10) →
    ((ds.reverse.map digitChar).foldl (fun a c => a * 10 + charDigit c) acc) =
      acc * 10 ^ ds.length + ofDigitsRev ds := by
  induction ds with
  | nil => intro acc _; simp [ofDigitsRev]
  | cons d ds' ih =>
    intro acc hlt
    rw [List.reverse_cons, List.map_append, List.foldl_append]
    rw [ih acc (fun x hx => hlt x (List.mem_cons_of_mem d hx))]
    show (acc * 10 ^ ds'.length + ofDigitsRev ds') * 10 + charDigit (digitChar d) =
      acc * 10 ^ (ds'.length + 1) + ofDigitsRev (d :: ds')
    rw [charDigit_digitChar (hlt d (List.mem_cons_self d ds'))]
    show (acc * 10 ^ ds'.length + ofDigitsRev ds') * 10 + d =
      acc * 10 ^ (ds'.length + 1) + (d + 10 * ofDigitsRev ds')
    rw [pow_succ]
    ring

theorem takeWhile_all {p : Char → Bool} : ∀ {cs : List Char},
    (∀ c ∈ cs, p c = true) → cs.takeWhile p = cs := by
  intro cs
  induction cs with
  | nil => intro _; rfl
  | cons c rest ih =>
    intro h
    rw [List.takeWhile_cons, if_pos (h c (List.mem_cons_self c rest))]
    rw [ih fun x hx => h x (List.mem_cons_of_mem c hx)]

theorem natToDec_digits {n : Nat} : ∀ c ∈ natToDec n, c.isDigit = true := by
  intro c hc
  unfold natToDec at hc
  split at hc
  · simp only [List.mem_singleton] at hc
    subst hc
    decide
  · rw [List.mem_map] at hc
    obtain ⟨d, hd, hdc⟩ := hc
    rw [List.mem_reverse] at hd
    rw [← hdc]
    exact digitChar_isDigit (natDigitsRevFuel_lt n n d hd)

theorem natToDec_ne_nil (n : Nat) : natToDec n ≠ [] := by
  unfold natToDec
  split
  · simp
  · have h1 := natDigitsRevFuel_ne_nil (by assumption) n le_rfl
    intro hc
    rw [List.map_eq_nil_iff, List.reverse_eq_nil_iff] at hc
    exact h1 hc

theorem natToDec_no_colon {n : Nat} : ∀ c ∈ natToDec n, c ≠ ':' ∧ c ≠ '\n' ∧ c ≠ '-' := by
  intro c hc
  have hd := natToDec_digits c hc
  refine ⟨?_, ?_, ?_⟩ <;> intro hcc <;> subst hcc <;> simp at hd

theorem decValue_natToDec (n : Nat) : decValue (natToDec n) = n := by
  unfold natToDec decValue
  split
  · subst n
    rfl
  · unfold natDigitsRev
    rw [foldl_digits _ 0 (natDigitsRevFuel_lt n n)]
    rw [natDigitsRevFuel_spec n n le_rfl]
    ring

theorem cvt_strtoofft_natToDec (n : Nat) : cvt_strtoofft (natToDec n) = n := by
  cases hcs : natToDec n with
  | nil => exact absurd hcs (natToDec_ne_nil n)
  | cons c rest =>
    have hcne : c ≠ '-' := (natToDec_no_colon c (hcs ▸ List.mem_cons_self c rest)).2.2
    rw [cvt_strtoofft, if_neg hcne]
    rw [takeWhile_all]
    · rw [← hcs, decValue_natToDec]
    · intro x hx
      exact natToDec_digits x (hcs ▸ hx)

theorem cvt_strtoofft_intToDec {i : Int} (h : 0 ≤ i) : cvt_strtoofft (intToDec i) = i := by
  unfold intToDec
  rw [if_neg (by omega)]
  rw [cvt_strtoofft_natToDec]
  omega

theorem intToDec_eq_natToDec {i : Int} (h : 0 ≤ i) : intToDec i = natToDec i.toNat := by
  unfold intToDec
  rw [if_neg (by omega)]

theorem splitOnChar_not_mem {delim : Char} : ∀ {cs : List Char},
    delim ∉ cs → splitOnChar delim cs = [cs] := by
  intro cs
  induction cs with
  | nil => intro _; rfl
  | cons c rest ih =>
    intro h
    rw [splitOnChar]
    rw [if_neg (by intro hc; exact h (hc ▸ List.mem_cons_self c rest))]
    rw [ih (fun hc => h (List.mem_cons_of_mem c hc))]

theorem splitOnChar_append {delim : Char} : ∀ {xs ys : List Char},
    delim ∉ xs → splitOnChar delim (xs ++ delim :: ys) = xs :: splitOnChar delim ys := by
  intro xs
  induction xs with
  | nil =>
    intro ys _
    show splitOnChar delim (delim :: ys) = [] :: splitOnChar delim ys
    rw [splitOnChar, if_pos rfl]
  | cons c rest ih =>
    intro ys h
    show splitOnChar delim (c :: (rest ++ delim :: ys)) = (c :: rest) :: splitOnChar delim ys
    rw [splitOnChar]
    rw [if_neg (by intro hc; exact h (hc ▸ List.mem_cons_self c rest))]
    rw [ih (fun hc => h (List.mem_cons_of_mem c hc))]

theorem splitOnChar_ne_nil (delim : Char) : ∀ cs, splitOnChar delim cs ≠ [] := by
  intro cs
  cases cs with
  | nil => simp [splitOnChar]
  | cons c rest =>
    rw [splitOnChar]
    split
    · simp
    · split <;> simp

theorem splitOnChar_lines {delim : Char} : ∀ (lines : List (List Char)) (first : List Char),
    delim ∉ first → (∀ l ∈ lines, delim ∉ l) →
    splitOnChar delim (first ++ (lines.map (delim :: ·)).flatten) = first :: lines := by
  intro lines
  induction lines with
  | nil =>
    intro first h1 _
    rw [List.map_nil, List.flatten_nil, List.append_nil]
    exact splitOnChar_not_mem h1
  | cons l rest ih =>
    intro first h1 h2
    rw [List.map_cons, List.flatten_cons]
    have : first ++ (delim :: l) ++ (rest.map (delim :: ·)).flatten =
        first ++ delim :: (l ++ (rest.map (delim :: ·)).flatten) := by simp
    rw [← List.append_assoc, this]
    rw [splitOnChar_append h1]
    rw [ih l (h2 l (List.mem_cons_self l rest)) (fun x hx => h2 x (List.mem_cons_of_mem l hx))]

theorem cppTokens_lines {delim : Char} (lines : List (List Char)) (first : List Char)
    (h1 : delim ∉ first) (h2 : ∀ l ∈ lines, delim ∉ l)
    (h3 : (first :: lines).getLast (by simp) ≠ []) :
    cppTokens delim (first ++ (lines.map (delim :: ·)).flatten) = first :: lines := by
  unfold cppTokens
  rw [splitOnChar_lines lines first h1 h2]
  rw [if_neg]
  intro hc
  rw [List.getLast?_eq_getLast _ (by simp), Option.some.injEq] at hc
  exact h3 hc

theorem intToDec_no_colon {i : Int} : ∀ c ∈ intToDec i, c ≠ ':' ∧ c ≠ '\n' := by
  unfold intToDec
  split
  · intro c hc
    rcases List.mem_cons.1 hc with h | h
    · subst h
      exact ⟨by decide, by decide⟩
    · exact ⟨(natToDec_no_colon c h).1, (natToDec_no_colon c h).2.1⟩
  · intro c hc
    exact ⟨(natToDec_no_colon c hc).1, (natToDec_no_colon c hc).2.1⟩

theorem intToDec_ne_nil (i : Int) : intToDec i ≠ [] := by
  unfold intToDec
  split
  · simp
  · exact natToDec_ne_nil _

theorem statusOf_is_loaded (l m : Bool) : status_is_loaded (statusOf l m) = l := by
  cases l <;> cases m <;> rfl

theorem statusOf_is_modified (l m : Bool) : status_is_modified (statusOf l m) = m := by
  cases l <;> cases m <;> rfl

theorem serializePage_no_nl (p : fdpage) : '\n' ∉ serializePage p := by
  unfold serializePage
  intro hc
  rcases List.mem_append.1 hc with h | h
  · rcases List.mem_append.1 h with h | h
    · rcases List.mem_append.1 h with h | h
      · exact (intToDec_no_colon _ h).2 rfl
      · rcases List.mem_cons.1 h with h | h
        · exact absurd h (by decide)
        · exact (intToDec_no_colon _ h).2 rfl
    · rcases List.mem_cons.1 h with h | h
      · exact absurd h (by decide)
      · revert h; cases p.loaded <;> decide
  · rcases List.mem_cons.1 h with h | h
    · exact absurd h (by decide)
    · revert h; cases p.modified <;> decide

theorem serializePage_ne_nil (p : fdpage) : serializePage p ≠ [] := by
  unfold serializePage
  cases h : intToDec p.offset with
  | nil => exact absurd h (intToDec_ne_nil _)
  | cons c cs => simp [h]

theorem Serialize_ne_nil (pl : PageList) (inode : Nat) : pl.Serialize inode ≠ [] := by
  unfold PageList.Serialize
  cases h : natToDec inode with
  | nil => exact absurd h (natToDec_ne_nil inode)
  | cons c cs => simp [h]

theorem cppTokens_header (inode : Nat) (S : Int) :
    cppTokens ':' (natToDec inode ++ ':' :: intToDec S) = [natToDec inode, intToDec S] := by
  have hsh : natToDec inode ++ ':' :: intToDec S =
      natToDec inode ++ (([intToDec S].map (':' :: ·)).flatten) := by simp
  rw [hsh]
  refine cppTokens_lines _ _ (fun hc => (natToDec_no_colon _ hc).1 rfl) ?_ ?_
  · intro l hl
    rw [List.mem_singleton] at hl
    subst hl
    intro hc
    exact (intToDec_no_colon _ hc).1 rfl
  · show intToDec S ≠ []
    exact intToDec_ne_nil S

theorem parseHead_serialize (inode : Nat) (S : Int) (h0 : inode ≠ 0)
    (hlt : inode < 2 ^ 64) (hS : 0 ≤ S) :
    parseHead (natToDec inode ++ ':' :: intToDec S) = some (inode, S) := by
  have hmod : ((cvt_strtoofft (natToDec inode)) % (2 ^ 64 : Int)).toNat = inode := by
    rw [cvt_strtoofft_natToDec]
    rw [Int.emod_eq_of_lt (by positivity) (by exact_mod_cast hlt)]
    simp
  simp only [parseHead, cppTokens_header, hmod, cvt_strtoofft_intToDec hS]
  rw [if_neg h0]

theorem cppTokens_serializePage (p : fdpage) :
    cppTokens ':' (serializePage p) = [intToDec p.offset, intToDec p.bytes,
      if p.loaded then ['1'] else ['0'], if p.modified then ['1'] else ['0']] := by
  have hsh : serializePage p = intToDec p.offset ++
      (([intToDec p.bytes, if p.loaded then ['1'] else ['0'],
         if p.modified then ['1'] else ['0']].map (':' :: ·)).flatten) := by
    simp [serializePage]
  rw [hsh]
  refine cppTokens_lines _ _ (fun hc => (intToDec_no_colon _ hc).1 rfl) ?_ ?_
  · intro l hl
    rcases List.mem_cons.1 hl with h | h
    · subst h
      intro hc
      exact (intToDec_no_colon _ hc).1 rfl
    · rcases List.mem_cons.1 h with h | h
      · subst h
        cases p.loaded <;> decide
      · rcases List.mem_cons.1 h with h | h
        · subst h
          cases p.modified <;> decide
        · simp at h
  · show (if p.modified then ['1'] else ['0']) ≠ []
    cases p.modified <;> simp

theorem parseRow_serializePage {p : fdpage} (ho : 0 ≤ p.offset) (hb : 0 ≤ p.bytes) :
    parseRow (serializePage p) = some (p.offset, p.bytes, p.loaded, p.modified) := by
  simp only [parseRow, cppTokens_serializePage]
  rw [cvt_strtoofft_intToDec ho, cvt_strtoofft_intToDec hb]
  cases p.loaded <;> cases p.modified <;> simp <;> decide

theorem mapM_parseRow_serialize {ps : List fdpage}
    (h : ∀ p ∈ ps, 0 ≤ p.offset ∧ 0 ≤ p.bytes) :
    (ps.map serializePage).mapM parseRow =
      some (ps.map (fun p => (p.offset, p.bytes, p.loaded, p.modified))) := by
  induction ps with
  | nil => rfl
  | cons p rest ih =>
    rw [List.map_cons, List.map_cons, List.mapM_cons]
    rw [parseRow_serializePage (h p (List.mem_cons_self p rest)).1
      (h p (List.mem_cons_self p rest)).2]
    rw [ih (fun q hq => h q (List.mem_cons_of_mem p hq))]
    rfl

theorem serialize_header_ne_nil (inode : Nat) (S : Int) :
    natToDec inode ++ ':' :: intToDec S ≠ [] := by
  cases h : natToDec inode with
  | nil => exact absurd h (natToDec_ne_nil inode)
  | cons c cs => simp [h]

theorem cppTokens_Serialize (pl : PageList) (inode : Nat) :
    cppTokens '\n' (pl.Serialize inode) =
      (natToDec inode ++ ':' :: intToDec pl.Size) :: pl.pages.map serializePage := by
  have hsh : pl.Serialize inode = (natToDec inode ++ ':' :: intToDec pl.Size) ++
      ((pl.pages.map serializePage).map ('\n' :: ·)).flatten := by
    show natToDec inode ++ ':' :: intToDec pl.Size ++
        (pl.pages.map (fun p => '\n' :: serializePage p)).flatten = _
    rw [List.map_map]
    rfl
  rw [hsh]
  refine cppTokens_lines _ _ ?_ ?_ ?_
  · intro hc
    rcases List.mem_append.1 hc with h | h
    · exact (natToDec_no_colon _ h).2.1 rfl
    · rcases List.mem_cons.1 h with h | h
      · exact absurd h (by decide)
      · exact (intToDec_no_colon _ h).2 rfl
  · intro l hl
    obtain ⟨p, hp, hlp⟩ := List.mem_map.1 hl
    subst hlp
    exact serializePage_no_nl p
  · intro hc
    have hmem := List.getLast_mem
      (show ((natToDec inode ++ ':' :: intToDec pl.Size) ::
        pl.pages.map serializePage) ≠ [] by simp)
    rw [hc] at hmem
    rcases List.mem_cons.1 hmem with h | h
    · exact serialize_header_ne_nil inode pl.Size h.symm
    · obtain ⟨p, hp, hlp⟩ := List.mem_map.1 h
      exact serializePage_ne_nil p hlp


theorem Deserialize_eq (content : List Char) (inode : Nat) (hne : content ≠ [])
    (hl : List Char) (rows : List (List Char)) (hts : cppTokens '\n' content = hl :: rows)
    (ci : Nat) (total : Int) (hph : parseHead hl = some (ci, total))
    (hci : ¬(ci ≠ 0 ∧ ci ≠ inode))
    (parsed : List (Int × Int × Bool × Bool)) (hmap : rows.mapM parseRow = some parsed) :
    PageList.Deserialize content inode =
      (if total ≠ (parsed.foldl
          (fun (acc : PageList) r =>
            acc.SetPageLoadedStatus r.1 r.2.1 (statusOf r.2.2.1 r.2.2.2) true)
          ⟨[], false⟩).Size
       then (false, ⟨[], false⟩)
       else (true, parsed.foldl
          (fun (acc : PageList) r =>
            acc.SetPageLoadedStatus r.1 r.2.1 (statusOf r.2.2.1 r.2.2.2) true)
          ⟨[], false⟩)) := by
  unfold PageList.Deserialize
  rw [if_neg hne, hts]
  simp only [hph, hmap]
  rw [if_neg hci]

/-- Append one page at the right end of a compressed list: it merges into
the final page when the flags agree (the list is assumed adjacent). -/
def appendMerge : List fdpage → fdpage → List fdpage
  | [], p => [p]
  | [q], p =>
    if q.loaded == p.loaded && q.modified == p.modified then
      [⟨q.offset, q.bytes + p.bytes, q.loaded, q.modified⟩]
    else [q, p]
  | q :: r :: rest, p => q :: appendMerge (r :: rest) p

theorem appendMerge_cons (x : fdpage) {ys : List fdpage} (p : fdpage) (h : ys ≠ []) :
    appendMerge (x :: ys) p = x :: appendMerge ys p := by
  cases ys with
  | nil => exact absurd rfl h
  | cons y ys' => rfl

theorem compressLoop_ne_nil : ∀ (r : List fdpage) (f : fdpage), compressLoop f r ≠ [] := by
  intro r
  induction r with
  | nil => intro f; simp [compressLoop]
  | cons q r' ih =>
    intro f
    rw [compressLoop]
    split
    · split
      · dsimp only
        split <;> simp
      · dsimp only
        split
        · exact ih _
        · simp
    · split
      · exact ih _
      · simp

theorem compressLoop_snoc : ∀ (r : List fdpage) (f p : fdpage) (e : Int),
    tilesFrom f.next r e → p.offset = e →
    compressLoop f (r ++ [p]) = appendMerge (compressLoop f r) p := by
  intro r
  induction r with
  | nil =>
    intro f p e ht hpo
    rw [tilesFrom_nil] at ht
    have hfp : f.next = p.offset := by omega
    show compressLoop f [p] = appendMerge (compressLoop f []) p
    rw [show compressLoop f [] = [f] from rfl]
    rw [compressLoop, if_neg (not_ne_iff.2 hfp)]
    rw [appendMerge]
    split <;> rfl
  | cons q r' ih =>
    intro f p e ht hpo
    rw [tilesFrom_cons] at ht
    obtain ⟨hq, hqb, ht'⟩ := ht
    have hfq : ¬(f.next ≠ q.offset) := not_ne_iff.2 hq.symm
    show compressLoop f (q :: (r' ++ [p])) = appendMerge (compressLoop f (q :: r')) p
    rw [compressLoop, if_neg hfq]
    rw [show compressLoop f (q :: r') =
        if f.loaded == q.loaded && f.modified == q.modified then
          compressLoop ⟨f.offset, f.bytes + q.bytes, f.loaded, f.modified⟩ r'
        else f :: compressLoop q r' from by rw [compressLoop, if_neg hfq]]
    by_cases hfl : (f.loaded == q.loaded && f.modified == q.modified) = true
    · rw [if_pos hfl, if_pos hfl]
      have hnext : (⟨f.offset, f.bytes + q.bytes, f.loaded, f.modified⟩ : fdpage).next = q.next := by
        show f.offset + (f.bytes + q.bytes) = q.offset + q.bytes
        have hq' : q.offset = f.offset + f.bytes := hq
        omega
      exact ih ⟨f.offset, f.bytes + q.bytes, f.loaded, f.modified⟩ p e (hnext ▸ ht') hpo
    · rw [if_neg hfl, if_neg hfl]
      rw [ih q p e ht' hpo]
      rw [appendMerge_cons f p (compressLoop_ne_nil r' q)]

theorem compressLoop_of_noMerge : ∀ (r : List fdpage) (f : fdpage) (b : Int),
    tilesFrom f.next r b → noMerge (f :: r) → compressLoop f r = f :: r := by
  intro r
  induction r with
  | nil => intro f b _ _; rfl
  | cons q r' ih =>
    intro f b ht hm
    rw [tilesFrom_cons] at ht
    rw [compressLoop, if_neg (not_ne_iff.2 ht.1.symm),
      if_neg (fun hc => hm.1 (by simpa using hc))]
    rw [ih q b ht.2.2 hm.2]

theorem setStatus_first {p : fdpage} (hpo : p.offset = 0) (hpb : 0 < p.bytes) :
    (PageList.mk [] false).SetPageLoadedStatus p.offset p.bytes
      (statusOf p.loaded p.modified) true = ⟨[p], false⟩ := by
  obtain ⟨o, b, l, m⟩ := p
  have ho : o = 0 := hpo
  have hb : 0 < b := hpb
  subst ho
  show (PageList.mk [] false).SetPageLoadedStatus 0 b (statusOf l m) true = ⟨[⟨0, b, l, m⟩], false⟩
  have hres : (PageList.mk [] false).Resize (0 + b) l m = ⟨[⟨0, b, l, m⟩], false⟩ := by
    have h0b : (0 : Int) + b = b := by ring
    rw [h0b]
    simp only [PageList.Resize]
    rw [show (PageList.mk [] false).Size = 0 from rfl]
    rw [if_pos rfl]
    show ({ PageList.Init b l m with is_shrink := false } : PageList).Compress = _
    simp only [PageList.Init]
    rw [if_pos (le_of_lt hb)]
    rfl
  simp only [PageList.SetPageLoadedStatus, status_is_loaded_eq, status_is_modified_eq,
    statusOf_is_loaded, statusOf_is_modified]
  rw [show (PageList.mk [] false).Size = 0 from rfl]
  rw [if_pos (le_refl (0 : Int)), if_neg (lt_irrefl (0 : Int)), hres]
  rfl

theorem setStatus_append {cs : List fdpage} {p : fdpage} {S : Int}
    (ht : tilesFrom 0 cs S) (hnm : noMerge cs) (hne : cs ≠ []) (hS : 0 < S)
    (hpo : p.offset = S) (hpb : 0 < p.bytes) :
    (PageList.mk cs false).SetPageLoadedStatus p.offset p.bytes
      (statusOf p.loaded p.modified) true = ⟨appendMerge cs p, false⟩ := by
  subst hpo
  obtain ⟨f, r, rfl⟩ : ∃ f r, cs = f :: r := by
    cases cs with
    | nil => exact absurd rfl hne
    | cons f r => exact ⟨f, r, rfl⟩
  have hsz : (PageList.mk (f :: r) false).Size = p.offset := tilesFrom_lastNext ht (by simp)
  rw [tilesFrom_cons] at ht
  obtain ⟨hf0, hfb, htr⟩ := ht
  have hpg : (⟨p.offset, p.offset + p.bytes - p.offset, p.loaded, p.modified⟩ : fdpage) = p := by
    have hh : p.offset + p.bytes - p.offset = p.bytes := by ring
    rw [hh]
  have hres : (PageList.mk (f :: r) false).Resize (p.offset + p.bytes) p.loaded p.modified
      = ⟨compressLoop f (r ++ [p]), false⟩ := by
    simp only [PageList.Resize]
    rw [hsz]
    rw [if_neg (by omega), if_pos (by omega)]
    rw [hpg]
    rfl
  have hcs : compressLoop f (r ++ [p]) = appendMerge (f :: r) p := by
    rw [compressLoop_snoc r f p p.offset htr rfl]
    rw [compressLoop_of_noMerge r f p.offset htr hnm]
  have hcc : (PageList.mk (compressLoop f (r ++ [p])) false).Compress
      = ⟨compressLoop f (r ++ [p]), false⟩ := by
    have htp : tilesFrom f.next (r ++ [p]) p.next := tilesFrom_concat htr hpb
    obtain ⟨ht2, hnm2, -, hd, tl, hdec, -, -, -⟩ := compressLoop_spec hfb htp
    rw [hdec] at ht2 hnm2 ⊢
    rw [tilesFrom_cons] at ht2
    have hid : compressLoop hd tl = hd :: tl :=
      compressLoop_of_noMerge tl hd p.next ht2.2.2 hnm2
    show (⟨compressLoop hd tl, false⟩ : PageList) = _
    rw [hid]
  simp only [PageList.SetPageLoadedStatus, status_is_loaded_eq, status_is_modified_eq,
    statusOf_is_loaded, statusOf_is_modified]
  rw [hsz]
  rw [if_pos (le_refl p.offset), if_neg (lt_irrefl p.offset), hres]
  show (PageList.mk (compressLoop f (r ++ [p])) false).Compress = ⟨appendMerge (f :: r) p, false⟩
  rw [hcc, hcs]

/-- The page list produced by `Compress`, at the level of raw page lists. -/
def compressPages : List fdpage → List fdpage
  | [] => []
  | f :: r => compressLoop f r

theorem Compress_pages_eq (pl : PageList) : pl.Compress.pages = compressPages pl.pages := by
  obtain ⟨ps, sh⟩ := pl
  cases ps <;> rfl

theorem deserialize_fold (ps : List fdpage) (b : Int) (h : tilesFrom 0 ps b) :
    (ps.map (fun p => (p.offset, p.bytes, p.loaded, p.modified))).foldl
      (fun (acc : PageList) r =>
        acc.SetPageLoadedStatus r.1 r.2.1 (statusOf r.2.2.1 r.2.2.2) true)
      ⟨[], false⟩ = ⟨compressPages ps, false⟩ := by
  induction ps using List.reverseRecOn generalizing b with
  | nil => rfl
  | append_singleton qs p ih =>
    obtain ⟨m, h1, h2⟩ := tilesFrom_append_split h
    rw [tilesFrom_cons] at h2
    obtain ⟨hpo, hpb, h2'⟩ := h2
    rw [List.map_append, List.foldl_append]
    rw [ih m h1]
    show (PageList.mk (compressPages qs) false).SetPageLoadedStatus p.offset p.bytes
      (statusOf p.loaded p.modified) true = ⟨compressPages (qs ++ [p]), false⟩
    cases qs with
    | nil =>
      rw [tilesFrom_nil] at h1
      have hpo0 : p.offset = 0 := by omega
      show (PageList.mk [] false).SetPageLoadedStatus p.offset p.bytes
        (statusOf p.loaded p.modified) true = ⟨compressLoop p [], false⟩
      rw [setStatus_first hpo0 hpb]
      rfl
    | cons f r =>
      rw [tilesFrom_cons] at h1
      obtain ⟨hf0, hfb, htr⟩ := h1
      have hspec := compressLoop_spec hfb htr
      have hcs : tilesFrom 0 (compressLoop f r) m := hf0 ▸ hspec.1
      have hm0 : 0 < m := by
        have h3 := tilesFrom_le htr
        have h4 : f.next = f.offset + f.bytes := rfl
        omega
      show (PageList.mk (compressLoop f r) false).SetPageLoadedStatus p.offset p.bytes
        (statusOf p.loaded p.modified) true = ⟨compressLoop f (r ++ [p]), false⟩
      rw [setStatus_append hcs hspec.2.1 (compressLoop_ne_nil r f) hm0 hpo hpb]
      rw [compressLoop_snoc r f p m htr hpo]

theorem deserialize_fold_WF {ps : List fdpage} (hw : WFpages ps) :
    (ps.map (fun p => (p.offset, p.bytes, p.loaded, p.modified))).foldl
      (fun (acc : PageList) r =>
        acc.SetPageLoadedStatus r.1 r.2.1 (statusOf r.2.2.1 r.2.2.2) true)
      ⟨[], false⟩ = ⟨compressPages ps, false⟩ := by
  rcases hw with h | ⟨l, m, h⟩ | h
  · subst h; rfl
  · subst h
    cases l <;> cases m <;> rfl
  · exact deserialize_fold ps (lastNext ps) h

/-- C8 counterexample: the claim quantifies over every inode, but the round
trip already fails for inode 0 with a non-empty list: `Serialize` writes the
inode unchecked, and `Deserialize` rejects a parsed `cache_inode` of 0
(fdcache_page.cpp:906-910), so the result flag is `false`. -/
theorem C8_inode_zero_counterexample :
    (PageList.Deserialize (PageList.Serialize ⟨[⟨0, 5, true, false⟩], false⟩ 0) 0).1 = false := by
  decide

/-- C8 (amended): for every well-formed page list and every inode with
`0 < inode < 2^64`, `Serialize` followed by `Deserialize` with the same
inode succeeds and returns exactly the pages of `Compress` of the original
(equality under compression), with the `is_shrink` flag reset to `false`
(it is not serialized). -/
theorem C8_serialize_roundtrip (pl : PageList) (inode : Nat) (hw : pl.WF)
    (h0 : inode ≠ 0) (hlt : inode < 2 ^ 64) :
    PageList.Deserialize (pl.Serialize inode) inode = (true, ⟨pl.Compress.pages, false⟩) := by
  have hbounds : ∀ p ∈ pl.pages, 0 ≤ p.offset ∧ 0 ≤ p.bytes := by
    rcases hw with h | ⟨l, m, h⟩ | h
    · intro q hq; rw [h] at hq; simp at hq
    · intro q hq
      rw [h] at hq
      rw [List.mem_singleton] at hq
      subst hq
      exact ⟨le_refl 0, le_refl 0⟩
    · intro q hq
      exact ⟨(tilesFrom_mem_bounds h hq).1, le_of_lt (tilesFrom_mem_pos h hq)⟩
  rw [Deserialize_eq (pl.Serialize inode) inode (Serialize_ne_nil pl inode)
    _ _ (cppTokens_Serialize pl inode) inode pl.Size
    (parseHead_serialize inode pl.Size h0 hlt (Size_nonneg hw))
    (fun hc => hc.2 rfl) _ (mapM_parseRow_serialize hbounds)]
  rw [deserialize_fold_WF hw]
  have hSize : (⟨compressPages pl.pages, false⟩ : PageList).Size = pl.Size := by
    have h1 : (⟨compressPages pl.pages, false⟩ : PageList).Size = pl.Compress.Size := by
      show lastNext (compressPages pl.pages) = lastNext pl.Compress.pages
      rw [Compress_pages_eq]
    rw [h1]
    exact (Compress_spec hw).2.1
  rw [if_neg (not_ne_iff.2 hSize.symm)]
  rw [Compress_pages_eq]

theorem C8_serialize_roundtrip_witness :
    PageList.Deserialize
        (PageList.Serialize ⟨[⟨0, 5, true, false⟩, ⟨5, 3, false, true⟩], true⟩ 42) 42
      = (true, ⟨(PageList.mk [⟨0, 5, true, false⟩, ⟨5, 3, false, true⟩] true).Compress.pages,
          false⟩) :=
  C8_serialize_roundtrip ⟨[⟨0, 5, true, false⟩, ⟨5, 3, false, true⟩], true⟩ 42
    (by decide) (by decide) (by decide)

/-- C7: `Deserialize` (i) fails with a cleared list when the current-format
header holds a non-zero inode different from the caller's inode, (ii) never
consults the caller's inode for a legacy header (parsed as inode 0), and
(iii) after rebuilding the pages, fails with a cleared list when the
reconstructed `Size()` differs from the header size. -/
theorem C7_deserialize_header_checks :
    (∀ (content : List Char) (inode : Nat) (hl : List Char) (rows : List (List Char))
       (ci : Nat) (total : Int),
       content ≠ [] → cppTokens '\n' content = hl :: rows →
       parseHead hl = some (ci, total) → ci ≠ 0 → ci ≠ inode →
       PageList.Deserialize content inode = (false, ⟨[], false⟩)) ∧
    (∀ (content : List Char) (i1 i2 : Nat) (hl : List Char) (rows : List (List Char))
       (total : Int),
       cppTokens '\n' content = hl :: rows → parseHead hl = some (0, total) →
       PageList.Deserialize content i1 = PageList.Deserialize content i2) ∧
    (∀ (content : List Char) (inode : Nat) (hl : List Char) (rows : List (List Char))
       (ci : Nat) (total : Int) (parsed : List (Int × Int × Bool × Bool)),
       content ≠ [] → cppTokens '\n' content = hl :: rows →
       parseHead hl = some (ci, total) → ¬(ci ≠ 0 ∧ ci ≠ inode) →
       rows.mapM parseRow = some parsed →
       total ≠ (parsed.foldl (fun (acc : PageList) r =>
         acc.SetPageLoadedStatus r.1 r.2.1 (statusOf r.2.2.1 r.2.2.2) true) ⟨[], false⟩).Size →
       PageList.Deserialize content inode = (false, ⟨[], false⟩)) := by
  refine ⟨?_, ?_, ?_⟩
  · intro content inode hl rows ci total hne hts hph h0 hin
    unfold PageList.Deserialize
    rw [if_neg hne, hts]
    simp only [hph]
    rw [if_pos ⟨h0, hin⟩]
  · intro content i1 i2 hl rows total hts hph
    by_cases hne : content = []
    · rw [hne]
      rfl
    · unfold PageList.Deserialize
      simp only [if_neg hne]
      rw [hts]
      simp only [hph]
      rw [if_neg (show ¬((0 : Nat) ≠ 0 ∧ (0 : Nat) ≠ i1) from fun hc => hc.1 rfl)]
      rw [if_neg (show ¬((0 : Nat) ≠ 0 ∧ (0 : Nat) ≠ i2) from fun hc => hc.1 rfl)]
  · intro content inode hl rows ci total parsed hne hts hph hci hmap hmis
    rw [Deserialize_eq content inode hne hl rows hts ci total hph hci parsed hmap]
    rw [if_pos hmis]

theorem C7_deserialize_header_checks_witness :
    PageList.Deserialize ['3', ':', '5'] 7 = (false, ⟨[], false⟩) ∧
    PageList.Deserialize ['5'] 1 = PageList.Deserialize ['5'] 2 ∧
    PageList.Deserialize ['1', ':', '5'] 1 = (false, ⟨[], false⟩) :=
  ⟨C7_deserialize_header_checks.1 ['3', ':', '5'] 7 ['3', ':', '5'] [] 3 5
     (by decide) (by decide) (by decide) (by decide) (by decide),
   C7_deserialize_header_checks.2.1 ['5'] 1 2 ['5'] [] 5 (by decide) (by decide),
   C7_deserialize_header_checks.2.2 ['1', ':', '5'] 1 ['1', ':', '5'] [] 1 5 []
     (by decide) (by decide) (by decide) (by decide) (by decide) (by decide)⟩
